import Mathlib

/-!
# LRU cache of the C web server (`src/cache.c`)

A shallow embedding of the cache engine: the heap of `struct cache_entry`
records is an explicit map from addresses to records, a pointer is an
`Option Nat` (`none` is `NULL`), and every function of `cache.c` becomes a
function on the program state that returns a `Fault` where the C code would
dereference `NULL` or a freed address.

C `int` values (`max_size`, `cur_size`, `content_length`) are unbounded `Int`;
the counter only moves by one per call, so wrap-around would need `2^31`
entries. `malloc` is assumed to succeed and hands out a fresh address.
-/

namespace CWebServer

/-- The ways a call can go wrong: a dereference of `NULL`, a dereference of
an address that holds no entry (freed or never allocated), and, for the model
only, the eviction loop running out of its iteration bound (which
`cache_put_fuel` below shows never happens). -/
inductive Fault where
  | null_deref
  | dangling
  | out_of_fuel
deriving DecidableEq, Repr

/-- The record `struct cache_entry` (declared in `cache.h`). -/
structure cache_entry where
  path : String
  content_type : String
  content_length : Int
  content : List Nat
  prev : Option Nat
  next : Option Nat
deriving DecidableEq, Repr

/-- The record `struct cache` (declared in `cache.h`) together with the heap
its pointers refer to: `heap a` is the entry stored at address `a` (`none`
when nothing is allocated there) and `brk` is the next address `malloc`
returns. -/
structure cache where
  head : Option Nat
  tail : Option Nat
  index : String → Option Nat
  max_size : Int
  cur_size : Int
  heap : Nat → Option cache_entry
  brk : Nat

/-- Reading through a pointer: `NULL` and freed addresses are faults. -/
def load (c : cache) (p : Option Nat) : Except Fault cache_entry :=
  match p with
  | none => .error .null_deref
  | some a =>
    match c.heap a with
    | none => .error .dangling
    | some e => .ok e

/-- Writing one record back at a live address. -/
def store (c : cache) (a : Nat) (e : cache_entry) : cache :=
  { c with heap := fun b => if b = a then some e else c.heap b }

/-- The assignment `p->next = v`. -/
def set_next (c : cache) (p : Option Nat) (v : Option Nat) : Except Fault cache :=
  match p with
  | none => .error .null_deref
  | some a =>
    match c.heap a with
    | none => .error .dangling
    | some e => .ok (store c a { e with next := v })

/-- The assignment `p->prev = v`. -/
def set_prev (c : cache) (p : Option Nat) (v : Option Nat) : Except Fault cache :=
  match p with
  | none => .error .null_deref
  | some a =>
    match c.heap a with
    | none => .error .dangling
    | some e => .ok (store c a { e with prev := v })

/-- Modelled from the spec: the Key Index of `hashtable.h`, whose source is
not part of `cache.c`. Only its key/value contract is used: `create` gives an
index without keys, the size hint has no observable effect. -/
def hashtable_create (_hashsize : Int) : String → Option Nat :=
  fun _ => none

/-- Modelled from the spec: `put` on the Key Index stores the reference under
the key and overwrites a reference stored there before. -/
def hashtable_put (ht : String → Option Nat) (key : String) (data : Nat) :
    String → Option Nat :=
  fun k => if k = key then some data else ht k

/-- Modelled from the spec: `get` on the Key Index returns the stored
reference, or not-found. -/
def hashtable_get (ht : String → Option Nat) (key : String) : Option Nat :=
  ht key

/-- Modelled from the spec: `delete` on the Key Index removes the key. -/
def hashtable_delete (ht : String → Option Nat) (key : String) :
    String → Option Nat :=
  fun k => if k = key then none else ht k

/-- The function `alloc_entry`: a fresh record holding copies of the path,
the content type and the first `content_length` bytes of the content. The
caller's buffer is a list of bytes and `memcpy` takes its first
`content_length` elements; a negative length, or one beyond the buffer, is
outside the precondition of the C function. The links are not written by
`alloc_entry`; they read as unset until `dllist_insert_head` assigns them. -/
def alloc_entry (c : cache) (path content_type : String) (content : List Nat)
    (content_length : Int) : cache × Nat :=
  let ce := c.brk
  let e : cache_entry :=
    { path := path
      content_type := content_type
      content_length := content_length
      content := content.take content_length.toNat
      prev := none
      next := none }
  ({ c with heap := fun b => if b = ce then some e else c.heap b, brk := c.brk + 1 }, ce)

/-- The function `free_entry`: reads the entry's fields and releases it. -/
def free_entry (c : cache) (entry : Option Nat) : Except Fault cache :=
  match entry with
  | none => .error .null_deref
  | some a =>
    match c.heap a with
    | none => .error .dangling
    | some _ => .ok { c with heap := fun b => if b = a then none else c.heap b }

/-- The function `dllist_insert_head`. -/
def dllist_insert_head (c : cache) (ce : Nat) : Except Fault cache :=
  if c.head = none then
    -- cache->head = cache->tail = ce; ce->prev = ce->next = NULL;
    let c1 := { c with head := some ce, tail := some ce }
    match set_next c1 (some ce) none with
    | .error f => .error f
    | .ok c2 => set_prev c2 (some ce) none
  else
    -- cache->head->prev = ce;
    match set_prev c c.head (some ce) with
    | .error f => .error f
    | .ok c1 =>
      -- ce->next = cache->head;
      match set_next c1 (some ce) c1.head with
      | .error f => .error f
      | .ok c2 =>
        -- ce->prev = NULL;
        match set_prev c2 (some ce) none with
        | .error f => .error f
        | .ok c3 =>
          -- cache->head = ce;
          .ok { c3 with head := some ce }

/-- The first half of `dllist_move_to_head`, taken when `ce` is not the
head: the entry is taken out of its place (lines 60 to 69). -/
def move_unlink (c : cache) (ce : Nat) : Except Fault cache :=
  if some ce = c.tail then
    -- cache->tail = ce->prev;
    match load c (some ce) with
    | .error f => .error f
    | .ok e =>
      let c1 := { c with tail := e.prev }
      -- cache->tail->next = NULL;
      set_next c1 c1.tail none
  else
    -- ce->prev->next = ce->next;
    match load c (some ce) with
    | .error f => .error f
    | .ok e =>
      match set_next c e.prev e.next with
      | .error f => .error f
      | .ok c1 =>
        -- ce->next->prev = ce->prev;
        match load c1 (some ce) with
        | .error f => .error f
        | .ok e1 => set_prev c1 e1.next e1.prev

/-- The second half of `dllist_move_to_head`: the entry is linked in front of
the head (lines 71 to 74). -/
def move_relink (c : cache) (ce : Nat) : Except Fault cache :=
  -- ce->next = cache->head;
  match set_next c (some ce) c.head with
  | .error f => .error f
  | .ok c1 =>
    -- cache->head->prev = ce;
    match set_prev c1 c1.head (some ce) with
    | .error f => .error f
    | .ok c2 =>
      -- ce->prev = NULL;
      match set_prev c2 (some ce) none with
      | .error f => .error f
      | .ok c3 =>
        -- cache->head = ce;
        .ok { c3 with head := some ce }

/-- The function `dllist_move_to_head`. -/
def dllist_move_to_head (c : cache) (ce : Nat) : Except Fault cache :=
  if some ce ≠ c.head then
    match move_unlink c ce with
    | .error f => .error f
    | .ok c1 => move_relink c1 ce
  else
    .ok c

/-- The function `dllist_remove_tail`: returns the state and the old tail. -/
def dllist_remove_tail (c : cache) : Except Fault (cache × Option Nat) :=
  let oldtail := c.tail
  -- cache->tail = oldtail->prev;
  match load c oldtail with
  | .error f => .error f
  | .ok e =>
    let c1 := { c with tail := e.prev }
    -- cache->tail->next = NULL;
    match set_next c1 c1.tail none with
    | .error f => .error f
    | .ok c2 =>
      -- cache->cur_size--;
      .ok ({ c2 with cur_size := c2.cur_size - 1 }, oldtail)

/-- The function `cache_create`. The heap holds no cache entry yet. -/
def cache_create (max_size : Int) (hashsize : Int) : cache :=
  { head := none
    tail := none
    index := hashtable_create hashsize
    max_size := max_size
    cur_size := 0
    heap := fun _ => none
    brk := 0 }

/-- The eviction loop of `cache_put`,
`while (cache->cur_size > cache->max_size) { ... }`, with a bound on the
number of iterations. Running out of the bound with the guard still true is
reported as `out_of_fuel`, apart from the faults of the body. -/
def evict_loop : Nat → cache → Except Fault cache
  | 0, c => if c.cur_size > c.max_size then .error .out_of_fuel else .ok c
  | n + 1, c =>
    if c.cur_size > c.max_size then
      -- struct cache_entry *old_tail = dllist_remove_tail(cache);
      match dllist_remove_tail c with
      | .error f => .error f
      | .ok (c1, old_tail) =>
        -- hashtable_delete(cache->index, old_tail->path);
        match load c1 old_tail with
        | .error f => .error f
        | .ok e =>
          let c2 := { c1 with index := hashtable_delete c1.index e.path }
          -- free_entry(old_tail);
          match free_entry c2 old_tail with
          | .error f => .error f
          | .ok c3 => evict_loop n c3
    else
      .ok c

/-- The function `cache_put`. Every iteration of the eviction loop lowers
`cur_size` by one and nothing else changes `cur_size` or `max_size`, so
`cur_size - max_size` iterations are enough for the guard to become false. -/
def cache_put (c : cache) (path content_type : String) (content : List Nat)
    (content_length : Int) : Except Fault cache :=
  -- struct cache_entry *ce = alloc_entry(path, content_type, content, content_length);
  let (c1, ce) := alloc_entry c path content_type content content_length
  -- dllist_insert_head(cache, ce);
  match dllist_insert_head c1 ce with
  | .error f => .error f
  | .ok c2 =>
    -- hashtable_put(cache->index, path, ce);
    let c3 := { c2 with index := hashtable_put c2.index path ce }
    -- cache->cur_size++;
    let c4 := { c3 with cur_size := c3.cur_size + 1 }
    evict_loop (c4.cur_size - c4.max_size).toNat c4

/-- The function `cache_get`: the state afterwards and the returned pointer
(`none` is `NULL`, not found). -/
def cache_get (c : cache) (path : String) : Except Fault (cache × Option Nat) :=
  -- struct cache_entry *ce = hashtable_get(cache->index, path);
  match hashtable_get c.index path with
  | none => .ok (c, none)
  | some ce =>
    -- dllist_move_to_head(cache, ce);
    match dllist_move_to_head c ce with
    | .error f => .error f
    | .ok c1 => .ok (c1, some ce)

/-- A call of the public interface. -/
inductive Op where
  | put (path content_type : String) (content : List Nat) (content_length : Int)
  | get (path : String)
deriving DecidableEq, Repr

/-- One call applied to a state. -/
def step (c : cache) : Op → Except Fault cache
  | .put path content_type content content_length =>
    cache_put c path content_type content content_length
  | .get path =>
    match cache_get c path with
    | .error f => .error f
    | .ok (c1, _) => .ok c1

/-- A sequence of calls, left to right; the first fault stops the run. -/
def run (c : cache) : List Op → Except Fault cache
  | [] => .ok c
  | op :: rest =>
    match step c op with
    | .error f => .error f
    | .ok c1 => run c1 rest

/-- Following `next` from a pointer, at most `n` entries. -/
def walk_next (c : cache) : Nat → Option Nat → List Nat
  | 0, _ => []
  | _ + 1, none => []
  | n + 1, some a =>
    match c.heap a with
    | none => [a]
    | some e => a :: walk_next c n e.next

/-- Following `prev` from a pointer, at most `n` entries. -/
def walk_prev (c : cache) : Nat → Option Nat → List Nat
  | 0, _ => []
  | _ + 1, none => []
  | n + 1, some a =>
    match c.heap a with
    | none => [a]
    | some e => a :: walk_prev c n e.prev

/-- The addresses of the recency list, head to tail: the walk along `next`
from `head`, with one step more than `cur_size` so that a list longer than
the counter shows. -/
def cache_list (c : cache) : List Nat :=
  walk_next c (c.cur_size.toNat + 1) c.head

/-- The keys of the recency list, head to tail. -/
def cache_keys (c : cache) : List String :=
  (cache_list c).filterMap fun a => (c.heap a).map cache_entry.path

/-- The result of `cache_get` at a key as the caller sees it: the entry the
returned pointer designates, `none` for not found. -/
def lookup (c : cache) (path : String) : Except Fault (Option cache_entry) :=
  match cache_get c path with
  | .error f => .error f
  | .ok (_, none) => .ok none
  | .ok (c1, some a) =>
    match c1.heap a with
    | none => .error .dangling
    | some e => .ok (some e)

/-! ## The recency list as a sequence of items

The doubly linked list is described by the sequence of its entries from head
to tail; an item is an entry without its two links. -/

/-- An entry of the list: its address and the fields `cache_put` stored. -/
structure Item where
  addr : Nat
  path : String
  content_type : String
  content_length : Int
  content : List Nat
deriving DecidableEq, Repr

/-- The heap record of an item with the given links. -/
def Item.entry (i : Item) (p n : Option Nat) : cache_entry :=
  { path := i.path
    content_type := i.content_type
    content_length := i.content_length
    content := i.content
    prev := p
    next := n }

/-- Address of the first item, or `n` for no item. -/
def first_addr : List Item → Option Nat → Option Nat
  | [], n => n
  | i :: _, _ => some i.addr

/-- Address of the last item, or `p` for no item. -/
def last_addr : List Item → Option Nat → Option Nat
  | [], p => p
  | i :: r, _ => last_addr r (some i.addr)

/-- The heap links the items into a chain: the first one's `prev` is `p`, the
last one's `next` is `n`, and neighbours point at each other. -/
def seg (h : Nat → Option cache_entry) : Option Nat → List Item → Option Nat → Prop
  | _, [], _ => True
  | p, i :: r, n => h i.addr = some (i.entry p (first_addr r n)) ∧ seg h (some i.addr) r n

/-- The state holds the recency list `l`, head to tail. -/
structure Rep (c : cache) (l : List Item) : Prop where
  nodup : (l.map Item.addr).Nodup
  head_eq : c.head = first_addr l none
  tail_eq : c.tail = last_addr l none
  links : seg c.heap none l none

/-- The fields a list operation leaves alone. -/
def same_fields (c c2 : cache) : Prop :=
  c2.index = c.index ∧ c2.max_size = c.max_size ∧ c2.cur_size = c.cur_size ∧ c2.brk = c.brk

/-- The invariant of the cache: the list is well formed, the counter is its
length, `malloc` has not yet handed out an address above `brk`, and the index
only refers to entries of the list, each under its own key. -/
structure Inv (c : cache) (l : List Item) : Prop where
  rep : Rep c l
  size : c.cur_size = l.length
  fresh : ∀ i ∈ l, i.addr < c.brk
  indexed : ∀ k a, c.index k = some a → ∃ i ∈ l, i.addr = a ∧ i.path = k

/-- The item `cache_put` creates in state `c`. -/
def new_item (c : cache) (path content_type : String) (content : List Nat)
    (content_length : Int) : Item :=
  { addr := c.brk
    path := path
    content_type := content_type
    content_length := content_length
    content := content.take content_length.toNat }

/-- The invariant of a cache in which no key was put while present: the keys
of the list are pairwise distinct and the index holds every entry of the
list under its key. -/
structure Inv2 (c : cache) (l : List Item) : Prop where
  inv : Inv c l
  keys_nodup : (l.map Item.path).Nodup
  all_indexed : ∀ i ∈ l, c.index i.path = some i.addr

/-! ## Observations and the reference model used by the claims -/

/-- The arguments of one `cache_put` call. -/
structure put_args where
  path : String
  content_type : String
  content : List Nat
  content_length : Int
deriving DecidableEq, Repr

/-- The call `cache_put` with these arguments. -/
def put_args.op (a : put_args) : Op :=
  .put a.path a.content_type a.content a.content_length

/-- The key a call is about. -/
def Op.key : Op → String
  | .put path _ _ _ => path
  | .get path => path

/-- The reference LRU model drops keys from the end while more than
`max_size` remain: one key per round, as many rounds as there are keys too
many. -/
def drop_excess (max_size : Nat) (keys : List String) : List String :=
  Nat.iterate List.dropLast (keys.length - max_size) keys

/-- The reference LRU model, a put: the key is prepended, then keys are
dropped from the end while more than `max_size` remain. -/
def ref_put (max_size : Nat) (keys : List String) (k : String) : List String :=
  drop_excess max_size (k :: keys)

/-- The reference LRU model, a get: a present key moves to the front, an
absent key changes nothing. -/
def ref_get (keys : List String) (k : String) : List String :=
  if k ∈ keys then k :: keys.erase k else keys

/-- The reference LRU model, one call. -/
def ref_step (max_size : Nat) (keys : List String) : Op → List String
  | .put path _ _ _ => ref_put max_size keys path
  | .get path => ref_get keys path

/-- The reference LRU model, a sequence of calls. -/
def ref_run (max_size : Nat) (keys : List String) : List Op → List String
  | [] => keys
  | op :: rest => ref_run max_size (ref_step max_size keys op) rest

/-- No `cache_put` of the sequence uses a key that the index holds at the
time of the call. Calls after a fault are not looked at. -/
def puts_fresh (c : cache) : List Op → Bool
  | [] => true
  | op :: rest =>
    (match op with
      | .put path _ _ _ => (hashtable_get c.index path).isNone
      | .get _ => true)
    && (match step c op with
      | .error _ => true
      | .ok c1 => puts_fresh c1 rest)

/-- The same condition on the reference model: no put of a key that the
model holds at the time. -/
def ref_fresh (max_size : Nat) (keys : List String) : List Op → Bool
  | [] => true
  | op :: rest =>
    (match op with
      | .put path _ _ _ => decide (path ∉ keys)
      | .get _ => true)
    && ref_fresh max_size (ref_step max_size keys op) rest

/-- The time of the latest call about key `k`: the position, counted from
one, of the last call of the sequence with that key; zero when there is
none. -/
def last_use : List Op → String → Nat
  | [], _ => 0
  | op :: rest, k =>
    if last_use rest k ≠ 0 then last_use rest k + 1
    else if op.key = k then 1 else 0

/-- The correspondence between index and list: every key of the index maps
to an entry of the list carrying that key, and every entry of the list is the
one the index stores under its key. -/
def index_list_corr (c : cache) : Prop :=
  (∀ k a, c.index k = some a →
      a ∈ cache_list c ∧ (c.heap a).map cache_entry.path = some k)
  ∧ (∀ a ∈ cache_list c, ∃ e, c.heap a = some e ∧ c.index e.path = some a)

/-- The key of the tail entry, `none` for an empty list. -/
def tail_key (c : cache) : Option String :=
  match c.tail with
  | none => none
  | some a => (c.heap a).map cache_entry.path

/-- The call `cache_put` followed immediately by `cache_get` of the same key:
the entry the get returns. -/
def put_then_get (c : cache) (path content_type : String) (content : List Nat)
    (content_length : Int) : Except Fault (Option cache_entry) :=
  match cache_put c path content_type content content_length with
  | .error f => .error f
  | .ok c1 => lookup c1 path

/-- What holds in every state a run from `cache_create` reaches: the
invariant, the size bound when the capacity is positive, and an empty list
when it is not (a put then never completes). -/
structure Reach (c : cache) (l : List Item) : Prop where
  inv : Inv c l
  bounded : 1 ≤ c.max_size → c.cur_size ≤ c.max_size
  degenerate : c.max_size < 1 → l = []

/-- The fields of an item as `cache_put` arguments. -/
def Item.data (i : Item) : put_args :=
  { path := i.path
    content_type := i.content_type
    content := i.content
    content_length := i.content_length }

/-- What a `cache_put` call stores: the content cut to its first
`content_length` bytes. -/
def put_args.stored (a : put_args) : put_args :=
  { a with content := a.content.take a.content_length.toNat }

/-- Well-formedness of the recency list: following `next` from `head` visits
exactly `cur_size` entries and ends at `tail`; following `prev` from `tail`
visits the same entries in reverse order and ends at `head`; among the
entries of the list `head` is the only one with `prev` unset and `tail` the
only one with `next` unset; `head` and `tail` are both unset exactly when
`cur_size` is zero. The walks get one step more than `cur_size`, so a chain
that went on after `cur_size` entries would show. -/
def list_well_formed (c : cache) : Prop :=
  0 ≤ c.cur_size
  ∧ (walk_next c (c.cur_size.toNat + 1) c.head).length = c.cur_size.toNat
  ∧ (walk_next c (c.cur_size.toNat + 1) c.head).getLast? = c.tail
  ∧ walk_prev c (c.cur_size.toNat + 1) c.tail
      = (walk_next c (c.cur_size.toNat + 1) c.head).reverse
  ∧ (walk_prev c (c.cur_size.toNat + 1) c.tail).getLast? = c.head
  ∧ (∀ a ∈ walk_next c (c.cur_size.toNat + 1) c.head,
      ∃ e, c.heap a = some e
        ∧ (e.prev = none ↔ c.head = some a)
        ∧ (e.next = none ↔ c.tail = some a))
  ∧ ((c.head = none ∧ c.tail = none) ↔ c.cur_size = 0)

/-- Following one of the two links from a pointer, at most `n` entries:
`walk_next` and `walk_prev` are the two instances. -/
def walk_by (h : Nat → Option cache_entry) (f : cache_entry → Option Nat) :
    Nat → Option Nat → List Nat
  | 0, _ => []
  | _ + 1, none => []
  | n + 1, some a =>
    match h a with
    | none => [a]
    | some e => a :: walk_by h f n (f e)

/-- The state links exactly the entries at the addresses `l` into the recency
list, head to tail: the entries are pairwise distinct and allocated, the walk
along `next` from `head` visits `l` and then reaches `NULL`, and the walk
along `prev` from `tail` visits `l` in reverse order and then reaches `NULL`
(each walk is given one step more than the length of `l`). This is the
well-formedness of `list_well_formed` without the tie to `cur_size`, which
the list operations do not all maintain by themselves. -/
def well_linked (c : cache) (l : List Nat) : Prop :=
  l.Nodup
  ∧ (∀ a ∈ l, (c.heap a).isSome)
  ∧ walk_next c (l.length + 1) c.head = l
  ∧ walk_prev c (l.length + 1) c.tail = l.reverse

/-- The item stored at an address of the heap. -/
def item_at (h : Nat → Option cache_entry) (a : Nat) : Item :=
  match h a with
  | some e =>
    { addr := a
      path := e.path
      content_type := e.content_type
      content_length := e.content_length
      content := e.content }
  | none =>
    { addr := a
      path := ""
      content_type := ""
      content_length := 0
      content := [] }

/-! ## Lemmas on the list operations -/


theorem first_addr_append (l1 l2 : List Item) (n : Option Nat) :
    first_addr (l1 ++ l2) n = first_addr l1 (first_addr l2 n) := by
  cases l1 <;> rfl

theorem last_addr_append (l1 l2 : List Item) (p : Option Nat) :
    last_addr (l1 ++ l2) p = last_addr l2 (last_addr l1 p) := by
  induction l1 generalizing p with
  | nil => rfl
  | cons i r ih => simp [last_addr, ih]

theorem seg_frame {h h2 : Nat → Option cache_entry} {l : List Item} {p n : Option Nat}
    (hf : ∀ i ∈ l, h2 i.addr = h i.addr) (hs : seg h p l n) : seg h2 p l n := by
  induction l generalizing p with
  | nil => trivial
  | cons i r ih =>
    obtain ⟨h1, h3⟩ := hs
    refine ⟨?_, ih (fun j hj => hf j (List.mem_cons_of_mem _ hj)) h3⟩
    rw [hf i (List.mem_cons_self _ _)]; exact h1

theorem seg_append {h : Nat → Option cache_entry} {l1 l2 : List Item} {p n : Option Nat} :
    seg h p (l1 ++ l2) n ↔ seg h p l1 (first_addr l2 n) ∧ seg h (last_addr l1 p) l2 n := by
  induction l1 generalizing p with
  | nil => simp [seg, last_addr]
  | cons i r ih =>
    show (h i.addr = some (i.entry p (first_addr (r ++ l2) n)) ∧ seg h (some i.addr) (r ++ l2) n) ↔ _
    rw [ih, first_addr_append]
    simp only [seg, last_addr, and_assoc]

theorem set_next_ok {c : cache} {a : Nat} {e : cache_entry} (h : c.heap a = some e)
    (v : Option Nat) : set_next c (some a) v = .ok (store c a { e with next := v }) := by
  simp [set_next, h]

theorem set_prev_ok {c : cache} {a : Nat} {e : cache_entry} (h : c.heap a = some e)
    (v : Option Nat) : set_prev c (some a) v = .ok (store c a { e with prev := v }) := by
  simp [set_prev, h]

theorem load_ok {c : cache} {a : Nat} {e : cache_entry} (h : c.heap a = some e) :
    load c (some a) = .ok e := by
  simp [load, h]

theorem insert_head_spec {c : cache} {l : List Item} (hr : Rep c l) (it : Item)
    (hx : it.addr ∉ l.map Item.addr) (p0 n0 : Option Nat)
    (hl : c.heap it.addr = some (it.entry p0 n0)) :
    ∃ h2, dllist_insert_head c it.addr
        = .ok { c with head := some it.addr, tail := last_addr (it :: l) none, heap := h2 }
      ∧ seg h2 none (it :: l) none
      ∧ ∀ a, a ≠ it.addr → a ∉ l.map Item.addr → h2 a = c.heap a := by
  cases l with
  | nil =>
    have hh : c.head = none := hr.head_eq
    refine ⟨fun b => if b = it.addr then some (it.entry none none) else c.heap b, ?_, ?_, ?_⟩
    · simp [dllist_insert_head, hh, set_next, set_prev, hl, store, Item.entry, last_addr]
      funext b
      by_cases h1 : b = it.addr <;> simp [h1]
    · simp [seg, first_addr]
    · intro a ha _; simp [ha]
  | cons j r =>
    have hh : c.head = some j.addr := hr.head_eq
    obtain ⟨hj, hrest⟩ := hr.links
    have hne : it.addr ≠ j.addr := by
      intro h; apply hx; simp [h]
    refine ⟨fun b => if b = it.addr then some (it.entry none (some j.addr))
        else if b = j.addr then some (j.entry (some it.addr) (first_addr r none))
        else c.heap b, ?_, ?_, ?_⟩
    · simp [dllist_insert_head, hh, set_next, set_prev, hl, hj, store, Item.entry, last_addr, hne]
      refine ⟨hr.tail_eq, ?_⟩
      funext b
      by_cases h1 : b = it.addr <;> simp [h1, hne]
    · refine ⟨by simp [first_addr], by simp [hne.symm, first_addr], ?_⟩
      apply seg_frame _ hrest
      intro i hi
      have h1 : i.addr ≠ it.addr := by
        intro h; apply hx; simp; right; exact ⟨i, hi, h⟩
      have h2 : i.addr ≠ j.addr := by
        intro h
        have := hr.nodup
        simp at this
        exact this.1 i hi h
      simp [h1, h2]
    · intro a ha hb
      have : a ≠ j.addr := by intro h; apply hb; simp [h]
      simp [ha, this]

theorem first_addr_snoc (l : List Item) (s : Item) (n : Option Nat) :
    ∃ i ∈ l ++ [s], first_addr (l ++ [s]) n = some i.addr := by
  cases l with
  | nil => exact ⟨s, by simp, rfl⟩
  | cons j r => exact ⟨j, by simp, rfl⟩

theorem remove_tail_spec {c : cache} {l0 : List Item} {s t : Item}
    (hr : Rep c (l0 ++ [s, t])) :
    ∃ h2, dllist_remove_tail c
        = .ok ({ c with tail := some s.addr, cur_size := c.cur_size - 1, heap := h2 },
               some t.addr)
      ∧ seg h2 none (l0 ++ [s]) none
      ∧ ∀ a, a ≠ s.addr → h2 a = c.heap a := by
  have ht : c.tail = some t.addr := by
    rw [hr.tail_eq, last_addr_append]; rfl
  have hl := hr.links
  rw [seg_append] at hl
  obtain ⟨hl0, hs, htt, -⟩ := hl
  have hnd := hr.nodup
  simp only [List.map_append, List.map_cons, List.map_nil] at hnd
  rw [List.nodup_append] at hnd
  obtain ⟨-, hnd2, hdis⟩ := hnd
  have hst : t.addr ≠ s.addr := by
    intro h; simp [h] at hnd2
  refine ⟨fun b => if b = s.addr then some (s.entry (last_addr l0 none) none) else c.heap b,
    ?_, ?_, ?_⟩
  · simp [dllist_remove_tail, ht, load, htt, set_next, hs, store, Item.entry, first_addr]
  · rw [seg_append]
    refine ⟨?_, by simp [seg, first_addr]⟩
    apply seg_frame _ hl0
    intro i hi
    have : i.addr ≠ s.addr := by
      intro h
      exact hdis (List.mem_map_of_mem _ hi) (by simp [h])
    simp [this]
  · intro a ha; simp [ha]

theorem relink_spec {c : cache} {l : List Item} (hr : Rep c l) (hne : l ≠ []) (it : Item)
    (hx : it.addr ∉ l.map Item.addr) (p0 n0 : Option Nat)
    (hl : c.heap it.addr = some (it.entry p0 n0)) :
    ∃ h2, move_relink c it.addr = .ok { c with head := some it.addr, heap := h2 }
      ∧ seg h2 none (it :: l) none
      ∧ ∀ a, a ≠ it.addr → a ∉ l.map Item.addr → h2 a = c.heap a := by
  cases l with
  | nil => exact absurd rfl hne
  | cons j r =>
    have hh : c.head = some j.addr := hr.head_eq
    obtain ⟨hj, hrest⟩ := hr.links
    have hne : it.addr ≠ j.addr := by
      intro h; apply hx; simp [h]
    refine ⟨fun b => if b = it.addr then some (it.entry none (some j.addr))
        else if b = j.addr then some (j.entry (some it.addr) (first_addr r none))
        else c.heap b, ?_, ?_, ?_⟩
    · simp [move_relink, hh, set_next, set_prev, hl, hj, store, Item.entry, hne, hne.symm]
      funext b
      by_cases h1 : b = it.addr <;> simp [h1, hne]
    · refine ⟨by simp [first_addr], by simp [hne.symm, first_addr], ?_⟩
      apply seg_frame _ hrest
      intro i hi
      have h1 : i.addr ≠ it.addr := by
        intro h; apply hx; simp; right; exact ⟨i, hi, h⟩
      have h2 : i.addr ≠ j.addr := by
        intro h
        have := hr.nodup
        simp at this
        exact this.1 i hi h
      simp [h1, h2]
    · intro a ha hb
      have : a ≠ j.addr := by intro h; apply hb; simp [h]
      simp [ha, this]

theorem unlink_tail_spec {c : cache} {l0 : List Item} {s t : Item}
    (hr : Rep c (l0 ++ [s, t])) :
    ∃ h2, move_unlink c t.addr = .ok { c with tail := some s.addr, heap := h2 }
      ∧ seg h2 none (l0 ++ [s]) none
      ∧ ∀ a, a ≠ s.addr → h2 a = c.heap a := by
  have ht : c.tail = some t.addr := by
    rw [hr.tail_eq, last_addr_append]; rfl
  have hl := hr.links
  rw [seg_append] at hl
  obtain ⟨hl0, hs, htt, -⟩ := hl
  have hnd := hr.nodup
  simp only [List.map_append, List.map_cons, List.map_nil] at hnd
  rw [List.nodup_append] at hnd
  obtain ⟨-, hnd2, hdis⟩ := hnd
  have hst : t.addr ≠ s.addr := by
    intro h; simp [h] at hnd2
  refine ⟨fun b => if b = s.addr then some (s.entry (last_addr l0 none) none) else c.heap b,
    ?_, ?_, ?_⟩
  · simp [move_unlink, ht, load, htt, set_next, hs, store, Item.entry, first_addr]
  · rw [seg_append]
    refine ⟨?_, by simp [seg, first_addr]⟩
    apply seg_frame _ hl0
    intro i hi
    have : i.addr ≠ s.addr := by
      intro h
      exact hdis (List.mem_map_of_mem _ hi) (by simp [h])
    simp [this]
  · intro a ha; simp [ha]

theorem unlink_mid_spec {c : cache} {l0 r : List Item} {s t n : Item}
    (hr : Rep c (l0 ++ s :: t :: n :: r)) :
    ∃ h2, move_unlink c t.addr = .ok { c with heap := h2 }
      ∧ seg h2 none (l0 ++ s :: n :: r) none
      ∧ ∀ a, a ≠ s.addr → a ≠ n.addr → h2 a = c.heap a := by
  have hnd := hr.nodup
  simp only [List.map_append, List.map_cons] at hnd
  rw [List.nodup_append] at hnd
  obtain ⟨-, hnd2, hdis⟩ := hnd
  simp only [List.nodup_cons, List.mem_cons, List.mem_map, not_or] at hnd2
  obtain ⟨⟨hst, hsn, hsr⟩, ⟨htn, htr⟩, hnr, -⟩ := hnd2
  have hlast : last_addr (l0 ++ s :: t :: n :: r) none = last_addr r (some n.addr) := by
    rw [last_addr_append]; rfl
  have ht : some t.addr ≠ c.tail := by
    rw [hr.tail_eq, hlast]
    clear hlast hr hnr
    intro h
    have key : ∀ (r : List Item) (x : Nat), (∀ i ∈ r, i.addr ≠ t.addr) → x ≠ t.addr →
        last_addr r (some x) ≠ some t.addr := by
      intro r
      induction r with
      | nil => intro x _ hx; simpa [last_addr] using hx
      | cons i r ih =>
        intro x hr _
        exact ih i.addr (fun j hj => hr j (List.mem_cons_of_mem _ hj)) (hr i (List.mem_cons_self _ _))
    exact key r n.addr (fun i hi h => htr ⟨i, hi, h⟩) (Ne.symm htn) h.symm
  have hl := hr.links
  rw [seg_append] at hl
  obtain ⟨hl0, hs, htt, hn, hrr⟩ := hl
  replace hs : c.heap s.addr = some (s.entry (last_addr l0 none) (some t.addr)) := hs
  replace htt : c.heap t.addr = some (t.entry (some s.addr) (some n.addr)) := htt
  refine ⟨fun b => if b = n.addr then some (n.entry (some s.addr) (first_addr r none))
      else if b = s.addr then some (s.entry (last_addr l0 none) (some n.addr))
      else c.heap b, ?_, ?_, ?_⟩
  · simp [move_unlink, ht, load, htt, set_next, set_prev, hs, hn, store, Item.entry,
      Ne.symm hst, Ne.symm hsn, Ne.symm htn]
  · rw [seg_append]
    refine ⟨?_, by simp [first_addr, hsn], by simp, ?_⟩
    · apply seg_frame _ hl0
      intro i hi
      have h1 : i.addr ≠ s.addr := by
        intro h
        exact hdis (List.mem_map_of_mem _ hi) (by simp [h])
      have h2 : i.addr ≠ n.addr := by
        intro h
        exact hdis (List.mem_map_of_mem _ hi) (by simp [h])
      simp [h1, h2]
    · apply seg_frame _ hrr
      intro i hi
      have h1 : i.addr ≠ s.addr := fun h => hsr ⟨i, hi, h⟩
      have h2 : i.addr ≠ n.addr := fun h => hnr ⟨i, hi, h⟩
      simp [h1, h2]
  · intro a ha hb; simp [ha, hb]

theorem nodup_move (pre post : List Item) (t : Item)
    (h : ((pre ++ t :: post).map Item.addr).Nodup) :
    ((t :: (pre ++ post)).map Item.addr).Nodup :=
  (((List.perm_middle : (pre ++ t :: post).Perm (t :: (pre ++ post))).map
    Item.addr).nodup_iff).mp h

theorem head_ne_of_nodup {pre post : List Item} {s t : Item}
    (h : ((pre ++ s :: t :: post).map Item.addr).Nodup) :
    some t.addr ≠ first_addr (pre ++ s :: t :: post) none := by
  have h2 := nodup_move (pre ++ [s]) post t (by simpa using h)
  simp only [List.map_cons, List.nodup_cons, List.mem_map, not_exists, not_and] at h2
  obtain ⟨i, hi, he⟩ := first_addr_snoc pre s (first_addr (t :: post) none)
  have : first_addr (pre ++ s :: t :: post) none = some i.addr := by
    rw [← he, ← first_addr_append]; simp
  rw [this]
  intro h3
  injection h3 with h3
  exact h2.1 i (by simp at hi ⊢; tauto) h3.symm

theorem move_to_head_spec {c : cache} {pre post : List Item} {t : Item}
    (hr : Rep c (pre ++ t :: post)) :
    ∃ c2, dllist_move_to_head c t.addr = .ok c2 ∧ Rep c2 (t :: (pre ++ post))
      ∧ same_fields c c2 := by
  rcases List.eq_nil_or_concat pre with rfl | ⟨l0, s, hpre⟩
  · refine ⟨c, ?_, hr, rfl, rfl, rfl, rfl⟩
    have : c.head = some t.addr := hr.head_eq
    simp [dllist_move_to_head, this]
  · rw [List.concat_eq_append] at hpre
    subst hpre
    have hr2 : Rep c (l0 ++ s :: t :: post) := by simpa using hr
    have hne : some t.addr ≠ c.head := by
      rw [hr2.head_eq]; exact head_ne_of_nodup hr2.nodup
    have hnd := nodup_move _ _ _ hr.nodup
    have hts : t.addr ≠ s.addr := by
      intro h; simp [h] at hnd
    have htl : t.addr ∉ (l0 ++ [s] ++ post).map Item.addr := by
      simp only [List.map_cons, List.nodup_cons] at hnd
      exact hnd.1
    have hseg := hr2.links
    rw [seg_append] at hseg
    obtain ⟨-, -, htt, -⟩ := hseg
    cases post with
    | nil =>
      obtain ⟨h2, hu, hs2, hf2⟩ := unlink_tail_spec hr2
      have hrep2 : Rep { c with tail := some s.addr, heap := h2 } (l0 ++ [s]) := by
        refine ⟨?_, ?_, ?_, hs2⟩
        · simpa using (List.nodup_cons.mp hnd).2
        · show c.head = _
          rw [hr2.head_eq, first_addr_append, first_addr_append]; rfl
        · show some s.addr = _
          rw [last_addr_append]; rfl
      have hlive : h2 t.addr = some (t.entry (some s.addr) (first_addr [] none)) := by
        rw [hf2 _ hts]; exact htt
      obtain ⟨h3, hrl, hs3, -⟩ := relink_spec hrep2 (by simp) t (by simpa using htl) _ _ hlive
      refine ⟨{ c with head := some t.addr, tail := some s.addr, heap := h3 },
        ?_, ⟨?_, rfl, ?_, ?_⟩, rfl, rfl, rfl, rfl⟩
      · simp only [dllist_move_to_head, if_pos hne, hu, hrl]
      · simpa using hnd
      · show some s.addr = _
        simp [last_addr, last_addr_append]
      · simpa using hs3
    | cons n r =>
      obtain ⟨h2, hu, hs2, hf2⟩ := unlink_mid_spec hr2
      have htn : t.addr ≠ n.addr := by
        intro h; apply htl; simp [h]
      have hrep2 : Rep { c with heap := h2 } (l0 ++ s :: n :: r) := by
        refine ⟨?_, ?_, ?_, hs2⟩
        · simpa using (List.nodup_cons.mp hnd).2
        · show c.head = _
          rw [hr2.head_eq, first_addr_append, first_addr_append]; rfl
        · show c.tail = _
          rw [hr2.tail_eq, last_addr_append, last_addr_append]; rfl
      have hlive : h2 t.addr = some (t.entry (some s.addr) (first_addr (n :: r) none)) := by
        rw [hf2 _ hts htn]; exact htt
      obtain ⟨h3, hrl, hs3, -⟩ :=
        relink_spec hrep2 (by simp) t (by simpa using htl) _ _ hlive
      refine ⟨{ c with head := some t.addr, heap := h3 },
        ?_, ⟨?_, rfl, ?_, ?_⟩, rfl, rfl, rfl, rfl⟩
      · simp only [dllist_move_to_head, if_pos hne, hu, hrl]
      · simpa using hnd
      · show c.tail = _
        rw [hr2.tail_eq]
        simp [last_addr, last_addr_append]
      · simpa using hs3

theorem inv_create (max_size hashsize : Int) : Inv (cache_create max_size hashsize) [] := by
  refine ⟨⟨by simp, rfl, rfl, trivial⟩, rfl, by simp, ?_⟩
  intro k a h
  simp [cache_create, hashtable_create] at h

theorem brk_not_mem {c : cache} {l : List Item} (hi : Inv c l) :
    c.brk ∉ l.map Item.addr := by
  intro h
  obtain ⟨i, hi1, hi2⟩ := List.mem_map.mp h
  have := hi.fresh i hi1
  omega

/-- The state of `cache_put` just before the eviction loop. -/
theorem put_before_loop {c : cache} {l : List Item} (hi : Inv c l)
    (path content_type : String) (content : List Nat) (content_length : Int) :
    ∃ h2, dllist_insert_head (alloc_entry c path content_type content content_length).1
          (alloc_entry c path content_type content content_length).2
        = .ok { c with head := some c.brk,
                       tail := last_addr (new_item c path content_type content content_length :: l) none,
                       heap := h2, brk := c.brk + 1 }
      ∧ seg h2 none (new_item c path content_type content content_length :: l) none := by
  have hb := brk_not_mem hi
  have hrep : Rep (alloc_entry c path content_type content content_length).1 l := by
    refine ⟨hi.rep.nodup, hi.rep.head_eq, hi.rep.tail_eq, ?_⟩
    apply seg_frame _ hi.rep.links
    intro i h
    have := hi.fresh i h
    have hne : i.addr ≠ c.brk := by omega
    simp [alloc_entry, hne]
  obtain ⟨h2, he, hs, -⟩ := insert_head_spec hrep
    (new_item c path content_type content content_length) hb none none
    (by simp [alloc_entry, new_item, Item.entry])
  exact ⟨h2, he, hs⟩

theorem put_spec_room {c : cache} {l : List Item} (hi : Inv c l)
    (hlt : c.cur_size < c.max_size)
    (path content_type : String) (content : List Nat) (content_length : Int) :
    ∃ c2, cache_put c path content_type content content_length = .ok c2
      ∧ Inv c2 (new_item c path content_type content content_length :: l)
      ∧ c2.index = hashtable_put c.index path c.brk
      ∧ c2.max_size = c.max_size ∧ c2.brk = c.brk + 1 := by
  obtain ⟨h2, he, hs⟩ := put_before_loop hi path content_type content content_length
  have hfuel : (c.cur_size + 1 - c.max_size).toNat = 0 := by omega
  have hguard : ¬ (c.cur_size + 1 > c.max_size) := by omega
  refine ⟨{ c with head := some c.brk,
                   tail := last_addr (new_item c path content_type content content_length :: l) none,
                   heap := h2, brk := c.brk + 1,
                   index := hashtable_put c.index path c.brk,
                   cur_size := c.cur_size + 1 }, ?_, ⟨⟨?_, rfl, rfl, hs⟩, ?_, ?_, ?_⟩, rfl, rfl, rfl⟩
  · simp only [cache_put, he]
    simp only [hfuel, evict_loop, if_neg hguard]
    rfl
  · simpa [new_item] using ⟨by simpa using brk_not_mem hi, hi.rep.nodup⟩
  · simp [hi.size]
  · intro i h
    rcases List.mem_cons.mp h with rfl | h
    · simp [new_item]
    · have := hi.fresh i h
      show i.addr < c.brk + 1
      omega
  · intro k a h
    simp only [hashtable_put] at h
    by_cases hk : k = path
    · simp only [hk, if_true, Option.some.injEq] at h
      exact ⟨_, List.mem_cons_self _ _, by simp [new_item, h], by simp [new_item, hk]⟩
    · simp only [hk, if_false] at h
      obtain ⟨i, h1, h2⟩ := hi.indexed k a h
      exact ⟨i, List.mem_cons_of_mem _ h1, h2⟩

theorem put_spec_full {c : cache} {l0 : List Item} {t : Item} (hi : Inv c (l0 ++ [t]))
    (hfull : c.cur_size = c.max_size)
    (path content_type : String) (content : List Nat) (content_length : Int) :
    ∃ c2, cache_put c path content_type content content_length = .ok c2
      ∧ Inv c2 (new_item c path content_type content content_length :: l0)
      ∧ c2.index = hashtable_delete (hashtable_put c.index path c.brk) t.path
      ∧ c2.max_size = c.max_size ∧ c2.brk = c.brk + 1 := by
  obtain ⟨h2, he, hs⟩ := put_before_loop hi path content_type content content_length
  generalize hit : new_item c path content_type content content_length = it at *
  have hita : it.addr = c.brk := by rw [← hit]; rfl
  have hitp : it.path = path := by rw [← hit]; rfl
  have hfuel : (c.cur_size + 1 - c.max_size).toNat = 1 := by omega
  have hguard : c.cur_size + 1 > c.max_size := by omega
  have hguard2 : ¬ (c.cur_size + 1 - 1 > c.max_size) := by omega
  have hnd : ((it :: (l0 ++ [t])).map Item.addr).Nodup := by
    simpa [hita] using ⟨by simpa using brk_not_mem hi, by simpa using hi.rep.nodup⟩
  -- the list before eviction ends in two entries
  obtain ⟨L, s, hL⟩ : ∃ L s, it :: l0 = L ++ [s] := by
    rcases List.eq_nil_or_concat (it :: l0) with h | ⟨L, s, h⟩
    · simp at h
    · exact ⟨L, s, by simpa using h⟩
  have hlist : it :: (l0 ++ [t]) = L ++ [s, t] := by
    rw [← List.cons_append, hL]; simp
  have hrep4 : Rep { c with head := some c.brk, tail := last_addr (it :: (l0 ++ [t])) none,
                            heap := h2, brk := c.brk + 1,
                            index := hashtable_put c.index path c.brk,
                            cur_size := c.cur_size + 1 } (L ++ [s, t]) := by
    rw [← hlist]
    exact ⟨hnd, by simp [first_addr, hita], rfl, hs⟩
  obtain ⟨h5, hrt, hs5, hf5⟩ := remove_tail_spec hrep4
  rw [hlist] at hnd
  have htL : ∀ i ∈ L ++ [s], i.addr ≠ t.addr := by
    intro i hi2 h
    have h3 : ((L ++ [s] ++ [t]).map Item.addr).Nodup := by simpa using hnd
    rw [List.map_append, List.nodup_append] at h3
    exact h3.2.2 (List.mem_map_of_mem _ hi2) (by simp [h])
  have hts : t.addr ≠ s.addr := fun h => htL s (by simp) h.symm
  have hae : (alloc_entry c path content_type content content_length).2 = c.brk := rfl
  have hseg := hrep4.links
  rw [seg_append] at hseg
  obtain ⟨-, -, htt, -⟩ := hseg
  have h5t : h5 t.addr = some (t.entry (some s.addr) none) := by
    rw [hf5 _ hts]; exact htt
  refine ⟨{ c with head := some c.brk, tail := some s.addr,
                   heap := fun b => if b = t.addr then none else h5 b, brk := c.brk + 1,
                   index := hashtable_delete (hashtable_put c.index path c.brk) t.path,
                   cur_size := c.cur_size + 1 - 1 }, ?_, ⟨⟨?_, ?_, ?_, ?_⟩, ?_, ?_, ?_⟩, rfl, rfl, rfl⟩
  · rw [hae] at he
    simp only [cache_put, hae, he]
    simp only [hfuel, evict_loop, if_pos hguard, hrt, load, h5t, free_entry, if_neg hguard2]
    rfl
  · rw [hL]
    have h3 : ((L ++ [s] ++ [t]).map Item.addr).Nodup := by simpa using hnd
    rw [List.map_append, List.nodup_append] at h3
    exact h3.1
  · simp [first_addr, hita]
  · rw [hL, last_addr_append]; rfl
  · rw [hL]
    apply seg_frame _ hs5
    intro i hi2
    simp [htL i hi2]
  · have := hi.size
    simp at this ⊢
    omega
  · intro i h
    show i.addr < c.brk + 1
    rcases List.mem_cons.mp h with rfl | h
    · omega
    · have := hi.fresh i (List.mem_append_left _ h)
      omega
  · intro k a h
    simp only [hashtable_put, hashtable_delete] at h
    by_cases hkt : k = t.path
    · simp [hkt] at h
    · simp only [hkt, if_false] at h
      by_cases hk : k = path
      · simp only [hk, if_true, Option.some.injEq] at h
        exact ⟨it, List.mem_cons_self _ _, by rw [hita, h], by rw [hitp, hk]⟩
      · simp only [hk, if_false] at h
        obtain ⟨i, h1, h2, h3⟩ := hi.indexed k a h
        rcases List.mem_append.mp h1 with h1 | h1
        · exact ⟨i, List.mem_cons_of_mem _ h1, h2, h3⟩
        · simp at h1
          subst h1
          exact absurd h3.symm hkt

theorem get_spec_miss {c : cache} {k : String} (h : c.index k = none) :
    cache_get c k = .ok (c, none) := by
  simp [cache_get, hashtable_get, h]

theorem get_spec_hit {c : cache} {l : List Item} (hi : Inv c l) {k : String} {a : Nat}
    (h : c.index k = some a) :
    ∃ pre t post c2, l = pre ++ t :: post ∧ t.addr = a ∧ t.path = k
      ∧ cache_get c k = .ok (c2, some a) ∧ Inv c2 (t :: (pre ++ post))
      ∧ same_fields c c2 := by
  obtain ⟨t, ht, hta, htp⟩ := hi.indexed k a h
  obtain ⟨pre, post, hl⟩ := List.append_of_mem ht
  subst hl
  obtain ⟨c2, hm, hrep, hsf⟩ := move_to_head_spec hi.rep
  obtain ⟨h1, h2, h3, h4⟩ := hsf
  refine ⟨pre, t, post, c2, rfl, hta, htp, ?_, ⟨hrep, ?_, ?_, ?_⟩, ⟨h1, h2, h3, h4⟩⟩
  · simp [cache_get, hashtable_get, h, ← hta, hm]
  · rw [h3, hi.size]; simp; omega
  · intro i him
    rw [h4]
    apply hi.fresh
    simp at him ⊢
    tauto
  · intro k2 a2 hk2
    rw [h1] at hk2
    obtain ⟨i, hi1, hi2⟩ := hi.indexed k2 a2 hk2
    refine ⟨i, ?_, hi2⟩
    simp at hi1 ⊢
    tauto


/-! ## Lemmas on `cache_put`, `cache_get` and runs -/

theorem remove_tail_single {c : cache} {t : Item} (hr : Rep c [t]) :
    dllist_remove_tail c = .error .null_deref := by
  have ht : c.tail = some t.addr := hr.tail_eq
  have hh : c.heap t.addr = some (t.entry none none) := hr.links.1
  simp [dllist_remove_tail, ht, load, hh, set_next, Item.entry]

theorem put_fault {c : cache} (hi : Inv c []) (hm : c.max_size < 1)
    (path content_type : String) (content : List Nat) (content_length : Int) :
    cache_put c path content_type content content_length = .error .null_deref := by
  obtain ⟨h2, he, hs⟩ := put_before_loop hi path content_type content content_length
  have hae : (alloc_entry c path content_type content content_length).2 = c.brk := rfl
  rw [hae] at he
  have hsz : c.cur_size = 0 := by simpa using hi.size
  obtain ⟨n, hn⟩ : ∃ n, (c.cur_size + 1 - c.max_size).toNat = n + 1 :=
    ⟨(c.cur_size + 1 - c.max_size).toNat - 1, by omega⟩
  have hguard : c.cur_size + 1 > c.max_size := by omega
  have hrep : Rep { c with
        head := some c.brk
        tail := last_addr [new_item c path content_type content content_length] none
        heap := h2
        brk := c.brk + 1
        index := hashtable_put c.index path c.brk
        cur_size := c.cur_size + 1 } [new_item c path content_type content content_length] :=
    ⟨by simp, rfl, rfl, hs⟩
  have hrt := remove_tail_single hrep
  simp only [cache_put, hae, he, hn, evict_loop, if_pos hguard, hrt]

theorem put_spec {c : cache} {l : List Item} (hi : Inv c l) (hm : 1 ≤ c.max_size)
    (hb : c.cur_size ≤ c.max_size)
    (path content_type : String) (content : List Nat) (content_length : Int) :
    ∃ c2, cache_put c path content_type content content_length = .ok c2
      ∧ Inv c2 ((new_item c path content_type content content_length :: l).take c.max_size.toNat)
      ∧ c2.max_size = c.max_size ∧ c2.brk = c.brk + 1
      ∧ c2.index = (if c.cur_size < c.max_size then hashtable_put c.index path c.brk
          else hashtable_delete (hashtable_put c.index path c.brk)
            ((l.getLast?.map Item.path).getD "")) := by
  have hsz := hi.size
  by_cases hlt : c.cur_size < c.max_size
  · obtain ⟨c2, h1, h2, h3, h4, h5⟩ := put_spec_room hi hlt path content_type content content_length
    refine ⟨c2, h1, ?_, h4, h5, by simp [hlt, h3]⟩
    rw [List.take_of_length_le]
    · exact h2
    · simp; omega
  · have hfull : c.cur_size = c.max_size := by omega
    obtain ⟨l0, t, hl⟩ : ∃ l0 t, l = l0 ++ [t] := by
      rcases List.eq_nil_or_concat l with h | ⟨l0, t, h⟩
      · subst h; simp at hsz; omega
      · exact ⟨l0, t, by simpa using h⟩
    subst hl
    obtain ⟨c2, h1, h2, h3, h4, h5⟩ := put_spec_full hi hfull path content_type content content_length
    refine ⟨c2, h1, ?_, h4, h5, by simp [hlt, h3]⟩
    have hlen : c.max_size.toNat = l0.length + 1 := by
      simp at hsz; omega
    rw [hlen, ← List.cons_append, List.take_append_of_le_length (by simp)]
    rw [List.take_of_length_le (by simp)]
    exact h2

theorem put_reach {c : cache} {l : List Item} (hr : Reach c l)
    {path content_type : String} {content : List Nat} {content_length : Int} {c2 : cache}
    (h : cache_put c path content_type content content_length = .ok c2) :
    ∃ l2, Reach c2 l2 ∧ c2.max_size = c.max_size := by
  by_cases hm : 1 ≤ c.max_size
  · obtain ⟨c3, h1, h2, h3, -, -⟩ :=
      put_spec hr.inv hm (hr.bounded hm) path content_type content content_length
    rw [h1] at h
    injection h with h
    subst h
    refine ⟨_, ⟨h2, ?_, ?_⟩, h3⟩
    · intro _
      rw [h2.size, h3]
      have : ((new_item c path content_type content content_length :: l).take
          c.max_size.toNat).length ≤ c.max_size.toNat := by
        rw [List.length_take]; exact Nat.min_le_left _ _
      omega
    · intro h4; rw [h3] at h4; omega
  · have hl := hr.degenerate (by omega)
    subst hl
    rw [put_fault hr.inv (by omega)] at h
    cases h

theorem get_reach {c : cache} {l : List Item} (hr : Reach c l) {k : String} {c2 : cache}
    {r : Option Nat} (h : cache_get c k = .ok (c2, r)) :
    ∃ l2, Reach c2 l2 ∧ l2.Perm l ∧ same_fields c c2 ∧ r = c.index k := by
  cases hk : c.index k with
  | none =>
    rw [get_spec_miss hk] at h
    injection h with h
    injection h with h1 h2
    subst h1 h2
    exact ⟨l, hr, List.Perm.refl _, ⟨rfl, rfl, rfl, rfl⟩, rfl⟩
  | some a =>
    obtain ⟨pre, t, post, c3, hl, -, -, hg, hinv, hs⟩ := get_spec_hit hr.inv hk
    rw [hg] at h
    injection h with h
    injection h with h1 h2
    subst h1 h2 hl
    obtain ⟨s1, s2, s3, s4⟩ := hs
    refine ⟨_, ⟨hinv, ?_, ?_⟩, List.perm_middle.symm, ⟨s1, s2, s3, s4⟩, rfl⟩
    · intro h; rw [s2] at h; rw [s2, s3]; exact hr.bounded h
    · intro h; rw [s2] at h
      have := hr.degenerate h
      simp at this

theorem step_reach {c : cache} {l : List Item} (hr : Reach c l) {op : Op} {c2 : cache}
    (h : step c op = .ok c2) : ∃ l2, Reach c2 l2 ∧ c2.max_size = c.max_size := by
  cases op with
  | put path content_type content content_length => exact put_reach hr h
  | get path =>
    simp only [step] at h
    cases hg : cache_get c path with
    | error f => simp [hg] at h
    | ok p =>
      obtain ⟨c3, r⟩ := p
      simp only [hg] at h
      injection h with h
      subst h
      obtain ⟨l2, h1, -, h3, -⟩ := get_reach hr hg
      exact ⟨l2, h1, h3.2.1⟩

theorem run_reach {c : cache} {l : List Item} (hr : Reach c l) {ops : List Op} {c2 : cache}
    (h : run c ops = .ok c2) : ∃ l2, Reach c2 l2 ∧ c2.max_size = c.max_size := by
  induction ops generalizing c l with
  | nil =>
    simp only [run] at h
    injection h with h
    subst h
    exact ⟨l, hr, rfl⟩
  | cons op rest ih =>
    simp only [run] at h
    cases hs : step c op with
    | error f => simp [hs] at h
    | ok c1 =>
      simp only [hs] at h
      obtain ⟨l1, hr1, hm1⟩ := step_reach hr hs
      obtain ⟨l2, hr2, hm2⟩ := ih hr1 h
      exact ⟨l2, hr2, by rw [hm2, hm1]⟩

theorem reach_create (max_size hashsize : Int) : Reach (cache_create max_size hashsize) [] := by
  refine ⟨inv_create max_size hashsize, ?_, fun _ => rfl⟩
  intro h
  simp only [cache_create] at h ⊢
  omega

theorem reachable {max_size hashsize : Int} {ops : List Op} {c : cache}
    (h : run (cache_create max_size hashsize) ops = .ok c) :
    ∃ l, Reach c l ∧ c.max_size = max_size :=
  run_reach (reach_create max_size hashsize) h

theorem load_no_fuel (c : cache) (p : Option Nat) : load c p ≠ .error .out_of_fuel := by
  unfold load
  cases p with
  | none => simp
  | some a => cases h : c.heap a <;> simp [h]

theorem set_next_no_fuel (c : cache) (p v : Option Nat) :
    set_next c p v ≠ .error .out_of_fuel := by
  unfold set_next
  cases p with
  | none => simp
  | some a => cases h : c.heap a <;> simp [h]

theorem set_prev_no_fuel (c : cache) (p v : Option Nat) :
    set_prev c p v ≠ .error .out_of_fuel := by
  unfold set_prev
  cases p with
  | none => simp
  | some a => cases h : c.heap a <;> simp [h]

theorem free_entry_no_fuel (c : cache) (p : Option Nat) :
    free_entry c p ≠ .error .out_of_fuel := by
  unfold free_entry
  cases p with
  | none => simp
  | some a => cases h : c.heap a <;> simp [h]

theorem error_ne_fuel {α β : Type} {r : Except Fault α} {f : Fault}
    (h : r = .error f) (hr : r ≠ .error .out_of_fuel) :
    (Except.error f : Except Fault β) ≠ .error .out_of_fuel := by
  intro h2
  injection h2 with h2
  subst h2
  exact hr h

theorem insert_head_no_fuel (c : cache) (ce : Nat) :
    dllist_insert_head c ce ≠ .error .out_of_fuel := by
  simp only [dllist_insert_head]
  split
  · cases h1 : set_next { c with head := some ce, tail := some ce } (some ce) none with
    | error f => exact error_ne_fuel h1 (set_next_no_fuel _ _ _)
    | ok c2 => exact set_prev_no_fuel _ _ _
  · cases h1 : set_prev c c.head (some ce) with
    | error f => exact error_ne_fuel h1 (set_prev_no_fuel _ _ _)
    | ok c1 =>
      dsimp only
      cases h2 : set_next c1 (some ce) c1.head with
      | error f => exact error_ne_fuel h2 (set_next_no_fuel _ _ _)
      | ok c2 =>
        dsimp only
        cases h3 : set_prev c2 (some ce) none with
        | error f => exact error_ne_fuel h3 (set_prev_no_fuel _ _ _)
        | ok c3 => simp

theorem remove_tail_no_fuel (c : cache) : dllist_remove_tail c ≠ .error .out_of_fuel := by
  simp only [dllist_remove_tail]
  cases h1 : load c c.tail with
  | error f => exact error_ne_fuel h1 (load_no_fuel _ _)
  | ok e =>
    dsimp only
    cases h2 : set_next { c with tail := e.prev } e.prev none with
    | error f =>
      intro h
      injection h with h
      subst h
      exact set_next_no_fuel _ _ _ h2
    | ok c2 => simp

theorem remove_tail_fields {c c1 : cache} {t : Option Nat}
    (h : dllist_remove_tail c = .ok (c1, t)) :
    c1.cur_size = c.cur_size - 1 ∧ c1.max_size = c.max_size := by
  unfold dllist_remove_tail at h
  cases hl : load c c.tail with
  | error f => simp [hl] at h
  | ok e =>
    simp only [hl] at h
    cases hp : e.prev with
    | none => simp [hp, set_next] at h
    | some p =>
      cases hh : c.heap p with
      | none => simp [hp, set_next, hh] at h
      | some e2 =>
        simp only [hp, set_next, hh, store] at h
        injection h with h
        injection h with h1 h2
        subst h1
        exact ⟨rfl, rfl⟩

theorem free_entry_fields {c c1 : cache} {t : Option Nat} (h : free_entry c t = .ok c1) :
    c1.cur_size = c.cur_size ∧ c1.max_size = c.max_size := by
  unfold free_entry at h
  cases t with
  | none => simp at h
  | some a =>
    cases hh : c.heap a with
    | none => simp [hh] at h
    | some e =>
      simp only [hh] at h
      injection h with h
      subst h
      exact ⟨rfl, rfl⟩

/-- The bound on the eviction loop is never the reason a call stops. -/
theorem evict_loop_fuel (n : Nat) (c : cache) (hn : (c.cur_size - c.max_size).toNat ≤ n) :
    evict_loop n c ≠ .error .out_of_fuel := by
  induction n generalizing c with
  | zero =>
    have : ¬ (c.cur_size > c.max_size) := by omega
    simp [evict_loop, this]
  | succ n ih =>
    simp only [evict_loop]
    by_cases hg : c.cur_size > c.max_size
    · rw [if_pos hg]
      cases hrt : dllist_remove_tail c with
      | error f => exact error_ne_fuel hrt (remove_tail_no_fuel _)
      | ok r =>
        obtain ⟨c1, t⟩ := r
        obtain ⟨h1, h2⟩ := remove_tail_fields hrt
        dsimp only
        cases hl : load c1 t with
        | error f => exact error_ne_fuel hl (load_no_fuel _ _)
        | ok e =>
          dsimp only
          cases hf : free_entry { c1 with index := hashtable_delete c1.index e.path } t with
          | error f => exact error_ne_fuel hf (free_entry_no_fuel _ _)
          | ok c3 =>
            dsimp only
            obtain ⟨h3, h4⟩ := free_entry_fields hf
            apply ih
            rw [h3, h4]
            show (c1.cur_size - c1.max_size).toNat ≤ n
            rw [h1, h2]
            omega
    · rw [if_neg hg]
      simp

/-- The function `cache_put` never stops for lack of loop iterations: its
result is a completed call or a fault of the C code. -/
theorem cache_put_fuel (c : cache) (path content_type : String) (content : List Nat)
    (content_length : Int) :
    cache_put c path content_type content content_length ≠ .error .out_of_fuel := by
  simp only [cache_put]
  cases hi : dllist_insert_head (alloc_entry c path content_type content content_length).1
      (alloc_entry c path content_type content content_length).2 with
  | error f => exact error_ne_fuel hi (insert_head_no_fuel _ _)
  | ok c2 =>
    dsimp only
    exact evict_loop_fuel _ _ (le_refl _)

/-! ## Lemmas on the observations -/

theorem walk_next_seg {c : cache} {l : List Item} {p : Option Nat} {n : Nat}
    (hs : seg c.heap p l none) (hn : l.length ≤ n) :
    walk_next c n (first_addr l none) = l.map Item.addr := by
  induction l generalizing p n with
  | nil => cases n <;> rfl
  | cons i r ih =>
    obtain ⟨k, rfl⟩ : ∃ k, n = k + 1 := ⟨n - 1, by simp at hn; omega⟩
    obtain ⟨h1, h2⟩ := hs
    have := ih h2 (n := k) (by simp at hn; omega)
    show walk_next c (k + 1) (some i.addr) = _
    simp [walk_next, h1, Item.entry, this]

theorem last_addr_snoc (l : List Item) (s : Item) (p : Option Nat) :
    last_addr (l ++ [s]) p = some s.addr := by
  rw [last_addr_append]; rfl

theorem walk_prev_seg {c : cache} {l : List Item} {n : Option Nat} {k : Nat}
    (hs : seg c.heap none l n) (hk : l.length ≤ k) :
    walk_prev c k (last_addr l none) = (l.map Item.addr).reverse := by
  induction l using List.reverseRecOn generalizing n k with
  | nil => cases k <;> rfl
  | append_singleton l0 s ih =>
    obtain ⟨j, rfl⟩ : ∃ j, k = j + 1 := ⟨k - 1, by simp at hk; omega⟩
    rw [seg_append] at hs
    obtain ⟨h1, h2, -⟩ := hs
    have := ih h1 (k := j) (by simp at hk; omega)
    simp [last_addr_snoc, walk_prev, h2, Item.entry, this]

theorem seg_at {h : Nat → Option cache_entry} {pre post : List Item} {i : Item}
    {p n : Option Nat} (hs : seg h p (pre ++ i :: post) n) :
    h i.addr = some (i.entry (last_addr pre p) (first_addr post n)) := by
  rw [seg_append] at hs
  exact hs.2.1

theorem cache_list_eq {c : cache} {l : List Item} (hi : Inv c l) :
    cache_list c = l.map Item.addr := by
  unfold cache_list
  rw [hi.rep.head_eq]
  apply walk_next_seg hi.rep.links
  rw [hi.size]; simp

theorem cache_keys_eq {c : cache} {l : List Item} (hi : Inv c l) :
    cache_keys c = l.map Item.path := by
  unfold cache_keys
  rw [cache_list_eq hi, List.filterMap_map]
  have : ∀ i ∈ l, ((fun a => (c.heap a).map cache_entry.path) ∘ Item.addr) i
      = some (Item.path i) := by
    intro i him
    obtain ⟨pre, post, rfl⟩ := List.append_of_mem him
    simp [seg_at hi.rep.links, Item.entry]
  rw [List.filterMap_congr this]
  show List.filterMap (some ∘ Item.path) l = _
  rw [List.filterMap_eq_map]

theorem lookup_miss {c : cache} {k : String} (h : c.index k = none) :
    lookup c k = .ok none := by
  simp [lookup, get_spec_miss h]

theorem lookup_hit {c : cache} {l : List Item} (hi : Inv c l) {k : String} {a : Nat}
    (h : c.index k = some a) :
    ∃ t ∈ l, t.addr = a ∧ t.path = k ∧ ∃ n, lookup c k = .ok (some (t.entry none n)) := by
  obtain ⟨pre, t, post, c2, hl, hta, htp, hg, hinv, -⟩ := get_spec_hit hi h
  refine ⟨t, by simp [hl], hta, htp, first_addr (pre ++ post) none, ?_⟩
  have := hinv.rep.links.1
  rw [hta] at this
  simp [lookup, hg, this]

theorem addr_inj {l : List Item} (hnd : (l.map Item.addr).Nodup) {i j : Item}
    (hi : i ∈ l) (hj : j ∈ l) (h : i.addr = j.addr) : i = j :=
  List.inj_on_of_nodup_map hnd hi hj h

theorem path_inj {l : List Item} (hnd : (l.map Item.path).Nodup) {i j : Item}
    (hi : i ∈ l) (hj : j ∈ l) (h : i.path = j.path) : i = j :=
  List.inj_on_of_nodup_map hnd hi hj h

/-! ## Lemmas on runs that never put a present key -/

theorem iterate_dropLast (n : Nat) (l : List String) :
    Nat.iterate List.dropLast n l = l.take (l.length - n) := by
  induction n generalizing l with
  | zero => simp
  | succ n ih =>
    rw [Function.iterate_succ_apply, ih, List.dropLast_eq_take, List.take_take]
    congr 1
    simp
    omega

theorem drop_excess_eq_take (m : Nat) (l : List String) : drop_excess m l = l.take m := by
  unfold drop_excess
  rw [iterate_dropLast]
  by_cases h : l.length ≤ m
  · rw [List.take_of_length_le h, List.take_of_length_le (by omega)]
  · congr 1; omega

theorem index_none_iff {c : cache} {l : List Item} (h2 : Inv2 c l) (k : String) :
    c.index k = none ↔ k ∉ l.map Item.path := by
  constructor
  · intro h hm
    obtain ⟨i, hi, rfl⟩ := List.mem_map.mp hm
    rw [h2.all_indexed i hi] at h
    cases h
  · intro h
    cases hk : c.index k with
    | none => rfl
    | some a =>
      obtain ⟨i, hi, -, hp⟩ := h2.inv.indexed k a hk
      exact absurd (List.mem_map.mpr ⟨i, hi, hp⟩) h

theorem put_inv2 {c : cache} {l : List Item} (h2 : Inv2 c l) (hm : 1 ≤ c.max_size)
    (hb : c.cur_size ≤ c.max_size)
    (path content_type : String) (content : List Nat) (content_length : Int)
    (hk : path ∉ l.map Item.path) :
    ∃ c2, cache_put c path content_type content content_length = .ok c2
      ∧ Inv2 c2 ((new_item c path content_type content content_length :: l).take c.max_size.toNat)
      ∧ c2.max_size = c.max_size ∧ c2.brk = c.brk + 1 := by
  have hsz := h2.inv.size
  have hnd : ((new_item c path content_type content content_length :: l).map Item.path).Nodup := by
    simpa [new_item] using ⟨by simpa using hk, h2.keys_nodup⟩
  by_cases hlt : c.cur_size < c.max_size
  · obtain ⟨c2, h1, hinv, h3, h4, h5⟩ :=
      put_spec_room h2.inv hlt path content_type content content_length
    have htake : (new_item c path content_type content content_length :: l).take c.max_size.toNat
        = new_item c path content_type content content_length :: l := by
      rw [List.take_of_length_le]; simp; omega
    rw [htake]
    refine ⟨c2, h1, ⟨hinv, hnd, ?_⟩, h4, h5⟩
    intro i hi
    rw [h3]
    rcases List.mem_cons.mp hi with rfl | hi
    · simp [hashtable_put, new_item]
    · have hne : i.path ≠ path := by
        intro h; apply hk; exact List.mem_map.mpr ⟨i, hi, h⟩
      simp [hashtable_put, hne, h2.all_indexed i hi]
  · have hfull : c.cur_size = c.max_size := by omega
    obtain ⟨l0, t, hl⟩ : ∃ l0 t, l = l0 ++ [t] := by
      rcases List.eq_nil_or_concat l with h | ⟨l0, t, h⟩
      · subst h; simp at hsz; omega
      · exact ⟨l0, t, by simpa using h⟩
    subst hl
    obtain ⟨c2, h1, hinv, h3, h4, h5⟩ :=
      put_spec_full h2.inv hfull path content_type content content_length
    have htake : (new_item c path content_type content content_length :: (l0 ++ [t])).take
        c.max_size.toNat = new_item c path content_type content content_length :: l0 := by
      have hlen : c.max_size.toNat = l0.length + 1 := by
        simp at hsz; omega
      rw [hlen, ← List.cons_append, List.take_append_of_le_length (by simp)]
      rw [List.take_of_length_le (by simp)]
    rw [htake]
    have hnd2 : ((new_item c path content_type content content_length :: l0).map Item.path
        ++ [t.path]).Nodup := by simpa using hnd
    rw [List.nodup_append] at hnd2
    obtain ⟨hnd3, -, hdis⟩ := hnd2
    refine ⟨c2, h1, ⟨hinv, hnd3, ?_⟩, h4, h5⟩
    intro i hi
    have hit : i.path ≠ t.path := by
      intro h
      exact hdis (List.mem_map_of_mem _ hi) (by simp [h])
    rw [h3]
    rcases List.mem_cons.mp hi with rfl | hi
    · simp [hashtable_put, hashtable_delete, new_item] at hit ⊢
      exact hit
    · have hne : i.path ≠ path := by
        intro h; apply hk; exact List.mem_map.mpr ⟨i, by simp [hi], h⟩
      simp [hashtable_put, hashtable_delete, hne, hit, h2.all_indexed i (by simp [hi])]

theorem get_inv2 {c : cache} {l : List Item} (h2 : Inv2 c l) {k : String} {a : Nat}
    (h : c.index k = some a) :
    ∃ l2 c2, cache_get c k = .ok (c2, some a) ∧ Inv2 c2 l2 ∧ same_fields c c2
      ∧ l2.map Item.path = ref_get (l.map Item.path) k := by
  obtain ⟨pre, t, post, c2, hl, hta, htp, hg, hinv, hs⟩ := get_spec_hit h2.inv h
  subst hl
  have hnd := h2.keys_nodup
  have hperm : (t :: (pre ++ post)).Perm (pre ++ t :: post) := List.perm_middle.symm
  refine ⟨t :: (pre ++ post), c2, hg, ⟨hinv, ?_, ?_⟩, hs, ?_⟩
  · exact ((hperm.map Item.path).nodup_iff).mpr hnd
  · intro i hi
    rw [hs.1]
    exact h2.all_indexed i (hperm.subset hi)
  · have hmem : k ∈ (pre ++ t :: post).map Item.path := by simp [htp]
    have hpre : t.path ∉ pre.map Item.path := by
      intro h3
      simp only [List.map_append, List.map_cons] at hnd
      rw [List.nodup_append] at hnd
      exact hnd.2.2 h3 (by simp)
    simp only [ref_get, if_pos hmem]
    rw [← htp]
    simp only [List.map_append, List.map_cons]
    rw [List.erase_append_right _ hpre, List.erase_cons_head]

theorem ref_run_step_ok {c : cache} {l : List Item} {m : Int} (h2 : Inv2 c l)
    (hm : c.max_size = m) (h1 : 1 ≤ m) (hb : c.cur_size ≤ m) (op : Op)
    (hf : ∀ p ct b n, op = .put p ct b n → p ∉ l.map Item.path) :
    ∃ c2 l2, step c op = .ok c2 ∧ Inv2 c2 l2 ∧ c2.max_size = m ∧ c2.cur_size ≤ m
      ∧ l2.map Item.path = ref_step m.toNat (l.map Item.path) op := by
  cases op with
  | put path content_type content content_length =>
    obtain ⟨c2, hp, hinv, hmx, -⟩ := put_inv2 h2 (by omega) (by omega) path content_type
      content content_length (hf _ _ _ _ rfl)
    refine ⟨c2, _, hp, hinv, by rw [hmx, hm], ?_, ?_⟩
    · rw [hinv.inv.size, hm]
      have : ((new_item c path content_type content content_length :: l).take m.toNat).length
          ≤ m.toNat := by
        rw [List.length_take]; exact Nat.min_le_left _ _
      omega
    · simp only [ref_step, ref_put, drop_excess_eq_take, hm, List.map_take]
      rfl
  | get path =>
    cases hk : c.index path with
    | none =>
      refine ⟨c, l, by simp [step, get_spec_miss hk], h2, hm, hb, ?_⟩
      have := (index_none_iff h2 path).mp hk
      simp [ref_step, ref_get, this]
    | some a =>
      obtain ⟨l2, c2, hg, hinv, hs, hl2⟩ := get_inv2 h2 hk
      refine ⟨c2, l2, by simp [step, hg], hinv, by rw [hs.2.1, hm], by rw [hs.2.2.1]; exact hb, ?_⟩
      simpa [ref_step] using hl2

theorem fresh_run_from {c : cache} {l : List Item} {m : Int} (h2 : Inv2 c l)
    (hm : c.max_size = m) (h1 : 1 ≤ m) (hb : c.cur_size ≤ m) (ops : List Op)
    (hf : ref_fresh m.toNat (l.map Item.path) ops = true) :
    ∃ c2 l2, run c ops = .ok c2 ∧ Inv2 c2 l2 ∧ c2.max_size = m ∧ c2.cur_size ≤ m
      ∧ l2.map Item.path = ref_run m.toNat (l.map Item.path) ops := by
  induction ops generalizing c l with
  | nil => exact ⟨c, l, rfl, h2, hm, hb, rfl⟩
  | cons op rest ih =>
    simp only [ref_fresh, Bool.and_eq_true] at hf
    obtain ⟨hf1, hf2⟩ := hf
    obtain ⟨c1, l1, hs, hinv, hm1, hb1, hl1⟩ := ref_run_step_ok h2 hm h1 hb op (by
      intro p ct b n hop
      subst hop
      simpa using hf1)
    rw [← hl1] at hf2
    obtain ⟨c2, l2, hr, hinv2, hm2, hb2, hl2⟩ := ih hinv hm1 hb1 hf2
    refine ⟨c2, l2, by simp [run, hs, hr], hinv2, hm2, hb2, ?_⟩
    rw [hl2, hl1]; rfl

theorem puts_fresh_eq {c : cache} {l : List Item} {m : Int} (h2 : Inv2 c l)
    (hm : c.max_size = m) (h1 : 1 ≤ m) (hb : c.cur_size ≤ m) (ops : List Op) :
    puts_fresh c ops = ref_fresh m.toNat (l.map Item.path) ops := by
  induction ops generalizing c l with
  | nil => rfl
  | cons op rest ih =>
    by_cases hf : ∀ p ct b n, op = .put p ct b n → p ∉ l.map Item.path
    · obtain ⟨c1, l1, hs, hinv, hm1, hb1, hl1⟩ := ref_run_step_ok h2 hm h1 hb op hf
      simp only [puts_fresh, ref_fresh, hs, ih hinv hm1 hb1, hl1]
      congr 1
      cases op with
      | get p => rfl
      | put p ct b n =>
        have := hf p ct b n rfl
        simp [hashtable_get, (index_none_iff h2 p).mpr this, this]
    · push_neg at hf
      obtain ⟨p, ct, b, n, hop, hp⟩ := hf
      subst hop
      have hne : c.index p ≠ none := fun h => (index_none_iff h2 p).mp h hp
      cases hk : c.index p with
      | none => exact absurd hk hne
      | some a => simp [puts_fresh, ref_fresh, hashtable_get, hk, hp]

theorem inv2_create (max_size hashsize : Int) : Inv2 (cache_create max_size hashsize) [] :=
  ⟨inv_create max_size hashsize, by simp, by simp⟩

/-! ## Lemmas on the reference model and on the time of the latest use -/

theorem last_use_append (ops : List Op) (op : Op) (k : String) :
    last_use (ops ++ [op]) k = if op.key = k then ops.length + 1 else last_use ops k := by
  induction ops with
  | nil => simp [last_use]
  | cons o rest ih =>
    show last_use (o :: (rest ++ [op])) k = _
    simp only [last_use]
    rw [ih]
    by_cases h : op.key = k
    · simp [h]
    · simp [h]

theorem last_use_le (ops : List Op) (k : String) : last_use ops k ≤ ops.length := by
  induction ops with
  | nil => simp [last_use]
  | cons o rest ih =>
    simp only [last_use, List.length_cons]
    split
    · omega
    · split <;> omega

theorem ref_run_append (m : Nat) (l : List String) (pre : List Op) (op : Op) :
    ref_run m l (pre ++ [op]) = ref_step m (ref_run m l pre) op := by
  induction pre generalizing l with
  | nil => rfl
  | cons o rest ih =>
    show ref_run m (ref_step m l o) (rest ++ [op]) = _
    rw [ih]
    rfl

theorem ref_fresh_append (m : Nat) (l : List String) (pre : List Op) (op : Op) :
    ref_fresh m l (pre ++ [op]) = true ↔
      ref_fresh m l pre = true
        ∧ ∀ p ct b n, op = .put p ct b n → p ∉ ref_run m l pre := by
  induction pre generalizing l with
  | nil =>
    cases op with
    | get p => simp [ref_fresh, ref_run]
    | put p ct b n =>
      simp only [List.nil_append, ref_fresh, ref_run, Bool.and_true, decide_eq_true_eq,
        true_and]
      constructor
      · intro h p2 ct2 b2 n2 he
        injection he with h1
        subst h1
        exact h
      · intro h
        exact h p ct b n rfl
  | cons o rest ih =>
    show ((match o with
        | .put path _ _ _ => decide (path ∉ l)
        | .get _ => true) && ref_fresh m (ref_step m l o) (rest ++ [op])) = true ↔ _
    rw [Bool.and_eq_true, ih]
    simp only [ref_fresh, Bool.and_eq_true, ref_run, and_assoc]

theorem ref_sorted (m : Nat) (ops : List Op) (hf : ref_fresh m [] ops = true) :
    (ref_run m [] ops).Pairwise (fun a b => last_use ops b < last_use ops a) := by
  induction ops using List.reverseRecOn with
  | nil => simp [ref_run]
  | append_singleton pre op ih =>
    rw [ref_fresh_append] at hf
    obtain ⟨hf1, hf2⟩ := hf
    have hs := ih hf1
    rw [ref_run_append]
    generalize ref_run m [] pre = L at hs hf2
    have hnd : L.Nodup := hs.imp (fun h => by
      intro he; subst he; exact absurd h (lt_irrefl _))
    -- keys other than the one of the call keep their time
    have hold : ∀ k, k ≠ op.key → last_use (pre ++ [op]) k = last_use pre k := by
      intro k hk
      rw [last_use_append, if_neg (Ne.symm hk)]
    have hnew : last_use (pre ++ [op]) op.key = pre.length + 1 := by
      rw [last_use_append, if_pos rfl]
    have hfront : ∀ L2 : List String, L2.Sublist L → op.key ∉ L2 →
        (op.key :: L2).Pairwise (fun a b => last_use (pre ++ [op]) b < last_use (pre ++ [op]) a) := by
      intro L2 hsub hnot
      rw [List.pairwise_cons]
      constructor
      · intro k hk
        have hne : k ≠ op.key := fun h => hnot (by subst h; exact hk)
        rw [hold k hne, hnew]
        have := last_use_le pre k
        omega
      · refine (hs.sublist hsub).imp_of_mem ?_
        intro a b ha hb hab
        rw [hold a (fun h => hnot (by subst h; exact ha)),
          hold b (fun h => hnot (by subst h; exact hb))]
        exact hab
    cases op with
    | put p ct b n =>
      have hp : p ∉ L := hf2 p ct b n rfl
      simp only [ref_step, ref_put, drop_excess_eq_take]
      exact (hfront L (List.Sublist.refl _) hp).sublist (List.take_sublist _ _)
    | get p =>
      simp only [ref_step, ref_get]
      by_cases hp : p ∈ L
      · rw [if_pos hp]
        exact hfront (L.erase p) (List.erase_sublist _ _) (by
          show p ∉ L.erase p
          exact hnd.not_mem_erase)
      · rw [if_neg hp]
        refine hs.imp_of_mem ?_
        intro a b ha hb hab
        rw [hold a (fun h => hp (by subst h; exact ha)),
          hold b (fun h => hp (by subst h; exact hb))]
        exact hab

/-! ## Lemmas on runs of puts with distinct keys -/

theorem take_append_take {α : Type} (m : Nat) (X Y : List α) :
    (X ++ Y.take m).take m = (X ++ Y).take m := by
  rw [List.take_append_eq_append_take, List.take_append_eq_append_take, List.take_take]
  congr 2
  omega

theorem puts_run {c : cache} {l : List Item} {m : Int} (h2 : Inv2 c l)
    (hm : c.max_size = m) (h1 : 1 ≤ m) (hb : c.cur_size ≤ m) (puts : List put_args)
    (hnd : (puts.map put_args.path).Nodup)
    (hdis : ∀ a ∈ puts, a.path ∉ l.map Item.path) :
    ∃ c2 l2, run c (puts.map put_args.op) = .ok c2 ∧ Inv2 c2 l2 ∧ c2.max_size = m
      ∧ l2.map Item.data
          = ((puts.reverse.map put_args.stored) ++ l.map Item.data).take m.toNat := by
  induction puts generalizing c l with
  | nil =>
    refine ⟨c, l, rfl, h2, hm, ?_⟩
    rw [List.take_of_length_le]
    · simp
    · have := h2.inv.size
      simp
      omega
  | cons a rest ih =>
    obtain ⟨c1, hp, hinv, hm1, -⟩ := put_inv2 h2 (by omega) (by omega) a.path a.content_type
      a.content a.content_length (hdis a (List.mem_cons_self _ _))
    rw [hm] at hinv
    have hb1 : c1.cur_size ≤ m := by
      rw [hinv.inv.size]
      have : ((new_item c a.path a.content_type a.content a.content_length :: l).take
          m.toNat).length ≤ m.toNat := by
        rw [List.length_take]; exact Nat.min_le_left _ _
      omega
    simp only [List.map_cons, List.nodup_cons] at hnd
    obtain ⟨c2, l2, hr, hinv2, hm2, hl2⟩ := ih hinv (by rw [hm1, hm]) hb1 hnd.2 (by
      intro b hbm hmem
      obtain ⟨i, hi, hip⟩ := List.mem_map.mp hmem
      rcases List.mem_cons.mp (List.mem_of_mem_take hi) with rfl | hi
      · apply hnd.1
        have hab : a.path = b.path := hip
        rw [hab]
        exact List.mem_map_of_mem _ hbm
      · exact hdis b (List.mem_cons_of_mem _ hbm) (List.mem_map.mpr ⟨i, hi, hip⟩))
    refine ⟨c2, l2, ?_, hinv2, hm2, ?_⟩
    · show run c (a.op :: rest.map put_args.op) = _
      simp only [run, step, put_args.op]
      rw [hp]
      exact hr
    · rw [hl2, List.map_take, take_append_take]
      simp [new_item, Item.data, put_args.stored]

/-! ## The claims -/

theorem lookup_item {c : cache} {l : List Item} (h2 : Inv2 c l) {i : Item} (hi : i ∈ l) :
    ∃ n, lookup c i.path = .ok (some (i.entry none n)) := by
  obtain ⟨t, ht, hta, -, n, hl⟩ := lookup_hit h2.inv (h2.all_indexed i hi)
  have := addr_inj h2.inv.rep.nodup ht hi hta
  subst this
  exact ⟨n, hl⟩

theorem lookup_found_iff {c : cache} {l : List Item} (h2 : Inv2 c l) (k : String) :
    (∃ e, lookup c k = .ok (some e)) ↔ k ∈ l.map Item.path := by
  constructor
  · rintro ⟨e, he⟩
    by_contra hk
    rw [lookup_miss ((index_none_iff h2 k).mpr hk)] at he
    cases he
  · intro hk
    obtain ⟨i, hi, rfl⟩ := List.mem_map.mp hk
    obtain ⟨n, hn⟩ := lookup_item h2 hi
    exact ⟨_, hn⟩

/-- C1: on a fresh cache of capacity `max_size ≥ 1`, after `max_size + K`
puts (`K ≥ 1`) with pairwise distinct keys and no get in between, `cur_size`
is `max_size`, `cache_get` finds exactly the keys of the `max_size` latest
puts, and it returns not-found on each of the `K` oldest keys. -/
theorem C1_excess_puts_keep_latest (max_size hashsize : Int) (K : Nat)
    (puts : List put_args) (hm : 1 ≤ max_size) (hK : 1 ≤ K)
    (hlen : puts.length = max_size.toNat + K)
    (hnd : (puts.map put_args.path).Nodup) :
    ∃ c, run (cache_create max_size hashsize) (puts.map put_args.op) = .ok c
      ∧ c.cur_size = max_size
      ∧ (∀ k, (∃ e, lookup c k = .ok (some e)) ↔ k ∈ (puts.drop K).map put_args.path)
      ∧ (∀ k ∈ (puts.take K).map put_args.path, lookup c k = .ok none) := by
  obtain ⟨c, l, hr, h2, -, hl⟩ := puts_run (m := max_size) (inv2_create max_size hashsize) rfl hm
    (by simp [cache_create]; omega) puts hnd (by simp)
  simp only [List.map_nil, List.append_nil] at hl
  have hkeys : l.map Item.path = ((puts.drop K).map put_args.path).reverse := by
    have h3 : l.map Item.path = (l.map Item.data).map put_args.path := by
      rw [List.map_map]; rfl
    rw [h3, hl, ← List.map_take, List.map_map]
    have h4 : (put_args.path ∘ put_args.stored) = put_args.path := rfl
    rw [h4, List.take_reverse, ← List.map_reverse]
    congr 3
    omega
  have hsize : l.length = max_size.toNat := by
    have := congrArg List.length hl
    simp at this
    omega
  have hfound : ∀ k, (∃ e, lookup c k = .ok (some e)) ↔ k ∈ (puts.drop K).map put_args.path := by
    intro k
    rw [lookup_found_iff h2, hkeys, List.mem_reverse]
  refine ⟨c, hr, ?_, hfound, ?_⟩
  · rw [h2.inv.size, hsize]; omega
  · intro k hk
    have hnot : k ∉ (puts.drop K).map put_args.path := by
      intro hk2
      rw [← List.take_append_drop K puts, List.map_append, List.nodup_append] at hnd
      exact hnd.2.2 hk hk2
    cases hidx : c.index k with
    | none => exact lookup_miss hidx
    | some a =>
      exfalso
      apply hnot
      rw [← List.mem_reverse, ← hkeys]
      by_contra hk3
      rw [(index_none_iff h2 k).mpr hk3] at hidx
      cases hidx

/-- The claim C1 at capacity 2 with three puts. -/
theorem C1_excess_puts_keep_latest_witness :
    ∃ c, run (cache_create 2 0)
          ([⟨"a", "t", [1], 1⟩, ⟨"b", "t", [2], 1⟩, ⟨"c", "t", [3], 1⟩].map put_args.op) = .ok c
      ∧ c.cur_size = 2
      ∧ (∀ k, (∃ e, lookup c k = .ok (some e)) ↔
          k ∈ (([⟨"a", "t", [1], 1⟩, ⟨"b", "t", [2], 1⟩, ⟨"c", "t", [3], 1⟩] :
            List put_args).drop 1).map put_args.path)
      ∧ (∀ k ∈ (([⟨"a", "t", [1], 1⟩, ⟨"b", "t", [2], 1⟩, ⟨"c", "t", [3], 1⟩] :
            List put_args).take 1).map put_args.path, lookup c k = .ok none) :=
  C1_excess_puts_keep_latest 2 0 1 _ (by decide) (by decide) (by decide) (by decide)

/-- C2: on a fresh cache of capacity `max_size ≥ 1`, after `N ≤ max_size`
puts with pairwise distinct keys, `cur_size` is `N` and `cache_get` on each
key returns an entry holding the first `content_length` bytes stored under
that key, the stored length and the stored content type. -/
theorem C2_puts_within_capacity (max_size hashsize : Int) (puts : List put_args)
    (hm : 1 ≤ max_size) (hN : (puts.length : Int) ≤ max_size)
    (hnd : (puts.map put_args.path).Nodup) :
    ∃ c, run (cache_create max_size hashsize) (puts.map put_args.op) = .ok c
      ∧ c.cur_size = puts.length
      ∧ ∀ a ∈ puts, ∃ e, lookup c a.path = .ok (some e)
          ∧ e.content = a.content.take a.content_length.toNat
          ∧ e.content_length = a.content_length
          ∧ e.content_type = a.content_type := by
  obtain ⟨c, l, hr, h2, -, hl⟩ := puts_run (m := max_size) (inv2_create max_size hashsize) rfl hm
    (by simp [cache_create]; omega) puts hnd (by simp)
  simp only [List.map_nil, List.append_nil] at hl
  rw [List.take_of_length_le (by simp; omega)] at hl
  refine ⟨c, hr, ?_, ?_⟩
  · rw [h2.inv.size]
    have := congrArg List.length hl
    simp at this
    rw [this]
  · intro a ha
    have hmem : a.stored ∈ l.map Item.data := by
      rw [hl]
      exact List.mem_map_of_mem _ (List.mem_reverse.mpr ha)
    obtain ⟨i, hi, hia⟩ := List.mem_map.mp hmem
    obtain ⟨n, hn⟩ := lookup_item h2 hi
    have hp : i.path = a.path := congrArg put_args.path hia
    have hc : i.content = a.content.take a.content_length.toNat :=
      congrArg put_args.content hia
    have hlen : i.content_length = a.content_length := congrArg put_args.content_length hia
    have hct : i.content_type = a.content_type := congrArg put_args.content_type hia
    rw [hp] at hn
    exact ⟨_, hn, hc, hlen, hct⟩

/-- The claim C2 at capacity 3 with two puts. -/
theorem C2_puts_within_capacity_witness :
    ∃ c, run (cache_create 3 0)
          ([⟨"a", "text/plain", [104, 105, 0], 2⟩, ⟨"b", "image/png", [7], 1⟩].map
            put_args.op) = .ok c
      ∧ c.cur_size = ([⟨"a", "text/plain", [104, 105, 0], 2⟩, ⟨"b", "image/png", [7], 1⟩] :
          List put_args).length
      ∧ ∀ a ∈ ([⟨"a", "text/plain", [104, 105, 0], 2⟩, ⟨"b", "image/png", [7], 1⟩] :
          List put_args), ∃ e, lookup c a.path = .ok (some e)
          ∧ e.content = a.content.take a.content_length.toNat
          ∧ e.content_length = a.content_length
          ∧ e.content_type = a.content_type :=
  C2_puts_within_capacity 3 0 _ (by decide) (by decide) (by decide)

theorem tail_key_eq {c : cache} {l0 : List Item} {t : Item} (hi : Inv c (l0 ++ [t])) :
    tail_key c = some t.path := by
  have h1 : c.tail = some t.addr := by rw [hi.rep.tail_eq, last_addr_snoc]
  have h2 := seg_at hi.rep.links
  simp [tail_key, h1, h2, Item.entry]

/-- C3, the claim as stated fails: at capacity 1, after a put of key `k`, a
second put of `k` followed immediately by a get of `k` returns not-found. -/
theorem C3_round_trip_counterexample :
    ∃ c, run (cache_create 1 0) [.put "k" "text/plain" [1] 1] = .ok c
      ∧ put_then_get c "k" "text/plain" [2, 3] 2 = .ok none :=
  ⟨_, rfl, rfl⟩

/-- C3 as amended: in every state reachable from `cache_create` with
`max_size ≥ 1`, a put of key `k` that does not evict an entry carrying the
same key (the cache is not full, or the key of the tail entry is not `k`)
followed immediately by a get of `k` returns an entry with the content type
and the first `len` bytes that were put. -/
theorem C3_round_trip_amended (max_size hashsize : Int) (ops : List Op) (c : cache)
    (k ct : String) (bytes : List Nat) (len : Int) (hm : 1 ≤ max_size)
    (hr : run (cache_create max_size hashsize) ops = .ok c)
    (hk : c.cur_size < c.max_size ∨ tail_key c ≠ some k) :
    ∃ e, put_then_get c k ct bytes len = .ok (some e)
      ∧ e.content_type = ct ∧ e.content = bytes.take len.toNat
      ∧ e.content_length = len ∧ e.path = k := by
  obtain ⟨l, hreach, hmax⟩ := reachable hr
  have hm2 : 1 ≤ c.max_size := by rw [hmax]; exact hm
  obtain ⟨c2, hp, hinv, -, -, hidx⟩ := put_spec hreach.inv hm2 (hreach.bounded hm2) k ct bytes len
  have hk2 : c2.index k = some c.brk := by
    rw [hidx]
    by_cases hlt : c.cur_size < c.max_size
    · simp [hlt, hashtable_put]
    · have hsz := hreach.inv.size
      obtain ⟨l0, t, hl⟩ : ∃ l0 t, l = l0 ++ [t] := by
        rcases List.eq_nil_or_concat l with h | ⟨l0, t, h⟩
        · subst h; simp at hsz; omega
        · exact ⟨l0, t, by simpa using h⟩
      subst hl
      have htk : t.path ≠ k := by
        rcases hk with hk | hk
        · exact absurd hk hlt
        · rw [tail_key_eq hreach.inv] at hk
          simpa using hk
      simp [hlt, hashtable_put, hashtable_delete, Ne.symm htk]
  obtain ⟨t, ht, hta, -, n, hl⟩ := lookup_hit hinv hk2
  have hnew : new_item c k ct bytes len
      ∈ (new_item c k ct bytes len :: l).take c.max_size.toNat := by
    obtain ⟨j, hj⟩ : ∃ j, c.max_size.toNat = j + 1 := ⟨c.max_size.toNat - 1, by omega⟩
    rw [hj, List.take_succ_cons]
    exact List.mem_cons_self _ _
  have := addr_inj hinv.rep.nodup ht hnew (by rw [hta]; rfl)
  subst this
  exact ⟨(new_item c k ct bytes len).entry none n, by simp [put_then_get, hp, hl],
    rfl, rfl, rfl, rfl⟩

/-- The amended claim C3 in the state after one put, for a put of another
key. -/
theorem C3_round_trip_amended_witness :
    ∃ c, run (cache_create 1 0) [.put "k" "text/plain" [1] 1] = .ok c
      ∧ (c.cur_size < c.max_size ∨ tail_key c ≠ some "j")
      ∧ ∃ e, put_then_get c "j" "text/html" [2, 3] 1 = .ok (some e)
        ∧ e.content_type = "text/html" ∧ e.content = [2, 3].take (1 : Int).toNat
        ∧ e.content_length = 1 ∧ e.path = "j" :=
  ⟨_, rfl, Or.inr (by decide),
    C3_round_trip_amended 1 0 [.put "k" "text/plain" [1] 1] _ "j" "text/html" [2, 3] 1
      (by decide) rfl (Or.inr (by decide))⟩

/-- C6, the code at capacity 0: `cache_put` on a cache made by
`cache_create(0, _)` does not complete; the eviction loop calls
`dllist_remove_tail` on the list of one entry, which writes through the
`NULL` pointer `oldtail->prev`. -/
theorem C6_put_on_zero_capacity_faults (hashsize : Int) (path content_type : String)
    (content : List Nat) (content_length : Int) :
    cache_put (cache_create 0 hashsize) path content_type content content_length
      = .error .null_deref :=
  put_fault (inv_create 0 hashsize) (by simp [cache_create]) path content_type content
    content_length

theorem run_fresh_create {max_size hashsize : Int} (hm : 1 ≤ max_size) (ops : List Op)
    (hf : puts_fresh (cache_create max_size hashsize) ops = true) :
    ∃ c l, run (cache_create max_size hashsize) ops = .ok c ∧ Inv2 c l
      ∧ c.max_size = max_size ∧ c.cur_size ≤ max_size
      ∧ l.map Item.path = ref_run max_size.toNat [] ops
      ∧ ref_fresh max_size.toNat [] ops = true := by
  have h0 : (cache_create max_size hashsize).cur_size ≤ max_size := by
    simp only [cache_create]; omega
  have hf2 : ref_fresh max_size.toNat [] ops = true := by
    rw [← hf]
    exact (puts_fresh_eq (inv2_create max_size hashsize) rfl hm h0 ops).symm
  obtain ⟨c, l, h1, h2, h3, h4, h5⟩ :=
    fresh_run_from (inv2_create max_size hashsize) rfl hm h0 ops hf2
  exact ⟨c, l, h1, h2, h3, h4, h5, hf2⟩

/-- C4: on a fresh cache of capacity `max_size ≥ 1`, for every sequence of puts
and gets in which no put uses a key that is present at the time, the keys of
the recency list from head to tail are those of the reference LRU model; they
are ordered by the time of their latest put or get, latest first, and a put
that evicts removes the last of them, the key whose latest use is the oldest
among the keys present. -/
theorem C4_lru_order (max_size hashsize : Int) (ops : List Op) (hm : 1 ≤ max_size)
    (hf : puts_fresh (cache_create max_size hashsize) ops = true) :
    ∃ c, run (cache_create max_size hashsize) ops = .ok c
      ∧ cache_keys c = ref_run max_size.toNat [] ops
      ∧ (cache_keys c).Pairwise (fun a b => last_use ops b < last_use ops a)
      ∧ ∀ path content_type content content_length,
          c.cur_size = c.max_size →
          ∃ c2 rest victim,
            cache_put c path content_type content content_length = .ok c2
            ∧ cache_keys c = rest ++ [victim]
            ∧ cache_keys c2 = path :: rest
            ∧ ∀ k ∈ rest, last_use ops victim < last_use ops k := by
  obtain ⟨c, l, hr, h2, hmax, hb, hl, hf2⟩ := run_fresh_create hm ops hf
  have hkeys : cache_keys c = ref_run max_size.toNat [] ops := by
    rw [cache_keys_eq h2.inv, hl]
  have hsorted := ref_sorted max_size.toNat ops hf2
  rw [← hkeys] at hsorted
  refine ⟨c, hr, hkeys, hsorted, ?_⟩
  intro path content_type content content_length hfull
  have hsz := h2.inv.size
  obtain ⟨l0, t, hl0⟩ : ∃ l0 t, l = l0 ++ [t] := by
    rcases List.eq_nil_or_concat l with h | ⟨l0, t, h⟩
    · subst h; simp at hsz; omega
    · exact ⟨l0, t, by simpa using h⟩
  subst hl0
  obtain ⟨c2, hp, hinv, -, -, -⟩ :=
    put_spec_full h2.inv hfull path content_type content content_length
  have hk1 : cache_keys c = l0.map Item.path ++ [t.path] := by
    rw [cache_keys_eq h2.inv]; simp
  refine ⟨c2, l0.map Item.path, t.path, hp, hk1, ?_, ?_⟩
  · rw [cache_keys_eq hinv]; rfl
  · rw [hk1, List.pairwise_append] at hsorted
    intro k hk
    exact hsorted.2.2 k hk t.path (by simp)

/-- The claim C4 at capacity 2 on puts of three keys with a get in between. -/
theorem C4_lru_order_witness :
    ∃ c, run (cache_create 2 0)
          [.put "a" "t" [] 0, .put "b" "t" [] 0, .get "a", .put "c" "t" [] 0] = .ok c
      ∧ cache_keys c = ref_run (2 : Int).toNat []
          [.put "a" "t" [] 0, .put "b" "t" [] 0, .get "a", .put "c" "t" [] 0]
      ∧ (cache_keys c).Pairwise (fun a b =>
          last_use [.put "a" "t" [] 0, .put "b" "t" [] 0, .get "a", .put "c" "t" [] 0] b
            < last_use [.put "a" "t" [] 0, .put "b" "t" [] 0, .get "a", .put "c" "t" [] 0] a)
      ∧ ∀ path content_type content content_length,
          c.cur_size = c.max_size →
          ∃ c2 rest victim,
            cache_put c path content_type content content_length = .ok c2
            ∧ cache_keys c = rest ++ [victim]
            ∧ cache_keys c2 = path :: rest
            ∧ ∀ k ∈ rest,
                last_use [.put "a" "t" [] 0, .put "b" "t" [] 0, .get "a", .put "c" "t" [] 0]
                    victim
                  < last_use [.put "a" "t" [] 0, .put "b" "t" [] 0, .get "a", .put "c" "t" [] 0]
                    k :=
  C4_lru_order 2 0 _ (by decide) (by decide)

/-- C5: the scenario at capacity 2 with distinct keys A, B, C, D. After
put(A), put(B), put(C) the list holds C, B, `cache_get` finds exactly B and C
and returns not-found on A; after that get(A), then get(B) and put(D), the
list from head to tail is D, B, `cur_size` is 2 and `cache_get` on C returns
not-found. -/
theorem C5_scenario (hashsize : Int) (pa pb pc pd : put_args)
    (hd : [pa.path, pb.path, pc.path, pd.path].Nodup) :
    ∃ c3 c5, run (cache_create 2 hashsize) [pa.op, pb.op, pc.op] = .ok c3
      ∧ cache_keys c3 = [pc.path, pb.path]
      ∧ (∀ k, (∃ e, lookup c3 k = .ok (some e)) ↔ k = pb.path ∨ k = pc.path)
      ∧ lookup c3 pa.path = .ok none
      ∧ run c3 [.get pa.path, .get pb.path, pd.op] = .ok c5
      ∧ cache_keys c5 = [pd.path, pb.path]
      ∧ c5.cur_size = 2
      ∧ lookup c5 pc.path = .ok none := by
  simp only [List.nodup_cons, List.mem_cons, List.mem_singleton, not_or, List.not_mem_nil,
    not_false_eq_true, List.nodup_nil, and_true] at hd
  obtain ⟨⟨hab, hac, had⟩, ⟨hbc, hbd⟩, hcd⟩ := hd
  have h0 : (cache_create 2 hashsize).cur_size ≤ 2 := by simp [cache_create]
  have hf1 : ref_fresh (2 : Int).toNat (([] : List Item).map Item.path)
      [pa.op, pb.op, pc.op] = true := by
    simp [ref_fresh, ref_step, ref_put, drop_excess_eq_take, put_args.op, Ne.symm hab,
      Ne.symm hac, Ne.symm hbc]
  obtain ⟨c3, l3, hr3, hinv3, hm3, hb3, hl3⟩ :=
    fresh_run_from (m := 2) (inv2_create 2 hashsize) rfl (by decide) h0 _ hf1
  have hk3 : l3.map Item.path = [pc.path, pb.path] := by
    rw [hl3]
    simp [ref_run, ref_step, ref_put, drop_excess_eq_take, put_args.op]
  have hf2 : ref_fresh (2 : Int).toNat (l3.map Item.path)
      [.get pa.path, .get pb.path, pd.op] = true := by
    rw [hk3]
    simp [ref_fresh, ref_step, ref_put, ref_get, drop_excess_eq_take, put_args.op, hab, hac,
      Ne.symm hbc, Ne.symm hbd, Ne.symm hcd]
  obtain ⟨c5, l5, hr5, hinv5, hm5, hb5, hl5⟩ :=
    fresh_run_from (m := 2) hinv3 hm3 (by decide) hb3 _ hf2
  have hk5 : l5.map Item.path = [pd.path, pb.path] := by
    rw [hl5, hk3]
    simp [ref_run, ref_step, ref_put, ref_get, drop_excess_eq_take, put_args.op, hab, hac,
      Ne.symm hbc]
  have hlen5 : l5.length = 2 := by
    have := congrArg List.length hk5
    simpa using this
  refine ⟨c3, c5, hr3, ?_, ?_, ?_, hr5, ?_, ?_, ?_⟩
  · rw [cache_keys_eq hinv3.inv, hk3]
  · intro k
    rw [lookup_found_iff hinv3, hk3]
    simp [or_comm]
  · apply lookup_miss
    rw [index_none_iff hinv3, hk3]
    simp [hab, hac]
  · rw [cache_keys_eq hinv5.inv, hk5]
  · rw [hinv5.inv.size, hlen5]; rfl
  · apply lookup_miss
    rw [index_none_iff hinv5, hk5]
    simp [Ne.symm hbc, hcd]

/-- The claim C5 with the keys "A", "B", "C", "D". -/
theorem C5_scenario_witness :
    ∃ c3 c5, run (cache_create 2 0)
          [put_args.op ⟨"A", "t", [1], 1⟩, put_args.op ⟨"B", "t", [2], 1⟩,
            put_args.op ⟨"C", "t", [3], 1⟩] = .ok c3
      ∧ cache_keys c3 = ["C", "B"]
      ∧ (∀ k, (∃ e, lookup c3 k = .ok (some e)) ↔ k = "B" ∨ k = "C")
      ∧ lookup c3 "A" = .ok none
      ∧ run c3 [.get "A", .get "B", put_args.op ⟨"D", "t", [4], 1⟩] = .ok c5
      ∧ cache_keys c5 = ["D", "B"]
      ∧ c5.cur_size = 2
      ∧ lookup c5 "C" = .ok none :=
  C5_scenario 0 ⟨"A", "t", [1], 1⟩ ⟨"B", "t", [2], 1⟩ ⟨"C", "t", [3], 1⟩ ⟨"D", "t", [4], 1⟩
    (by decide)

theorem not_corr_of {c : cache} {a : Nat} {e : cache_entry} (hmem : a ∈ cache_list c)
    (he : c.heap a = some e) (hidx : c.index e.path ≠ some a) : ¬ index_list_corr c := by
  intro h
  obtain ⟨e2, he2, hi2⟩ := h.2 a hmem
  rw [he] at he2
  injection he2 with he2
  subst he2
  exact hidx hi2

/-- C7, the claim as stated fails: after two puts of the same key the entry
of the first put (at address 0) is still linked in the list, but the index
stores the entry of the second put under its key. -/
theorem C7_index_list_counterexample :
    ∃ c, run (cache_create 2 0) [.put "k" "t" [] 0, .put "k" "t" [] 0] = .ok c
      ∧ ¬ index_list_corr c :=
  ⟨_, rfl, not_corr_of (a := 0) (e := ⟨"k", "t", 0, [], some 1, none⟩)
    (by decide) rfl (by decide)⟩

/-- C7 as amended: in every state reachable from `cache_create`, every key of
the index maps to an entry linked in the recency list that carries that key;
and when no put of the sequence used a key the index held at the time, also
every entry of the list is the one the index stores under its key. -/
theorem C7_index_list_amended (max_size hashsize : Int) (ops : List Op) (c : cache)
    (hr : run (cache_create max_size hashsize) ops = .ok c) :
    (∀ k a, c.index k = some a →
        a ∈ cache_list c ∧ (c.heap a).map cache_entry.path = some k)
      ∧ (puts_fresh (cache_create max_size hashsize) ops = true → index_list_corr c) := by
  obtain ⟨l, hreach, hmax⟩ := reachable hr
  have hfirst : ∀ k a, c.index k = some a →
      a ∈ cache_list c ∧ (c.heap a).map cache_entry.path = some k := by
    intro k a hk
    obtain ⟨i, hi, hia, hip⟩ := hreach.inv.indexed k a hk
    rw [cache_list_eq hreach.inv]
    refine ⟨List.mem_map.mpr ⟨i, hi, hia⟩, ?_⟩
    obtain ⟨pre, post, rfl⟩ := List.append_of_mem hi
    rw [← hia, seg_at hreach.inv.rep.links]
    simp [Item.entry, hip]
  refine ⟨hfirst, fun hf => ⟨hfirst, ?_⟩⟩
  intro a ha
  by_cases hm : 1 ≤ max_size
  · obtain ⟨c2, l2, hr2, h2, -⟩ := run_fresh_create hm ops hf
    rw [hr] at hr2
    injection hr2 with hr2
    subst hr2
    rw [cache_list_eq h2.inv] at ha
    obtain ⟨i, hi, rfl⟩ := List.mem_map.mp ha
    obtain ⟨pre, post, rfl⟩ := List.append_of_mem hi
    exact ⟨_, seg_at h2.inv.rep.links, h2.all_indexed i hi⟩
  · have := hreach.degenerate (by omega)
    subst this
    rw [cache_list_eq hreach.inv] at ha
    simp at ha

/-- The amended claim C7 after two puts of different keys and a get. -/
theorem C7_index_list_amended_witness :
    ∃ c, run (cache_create 2 0) [.put "j" "t" [] 0, .put "k" "t" [] 0, .get "j"] = .ok c
      ∧ (∀ k a, c.index k = some a →
          a ∈ cache_list c ∧ (c.heap a).map cache_entry.path = some k)
      ∧ (puts_fresh (cache_create 2 0) [.put "j" "t" [] 0, .put "k" "t" [] 0, .get "j"] = true
          → index_list_corr c) :=
  ⟨_, rfl, C7_index_list_amended 2 0 [.put "j" "t" [] 0, .put "k" "t" [] 0, .get "j"] _ rfl⟩

/-- C8: on a cache made by `cache_create` with `max_size ≥ 0`, after every
sequence of puts and gets, a `cache_put` that completes leaves
`0 ≤ cur_size ≤ max_size`. -/
theorem C8_size_bound (max_size hashsize : Int) (ops : List Op) (c c2 : cache)
    (path content_type : String) (content : List Nat) (content_length : Int)
    (hm : 0 ≤ max_size)
    (hr : run (cache_create max_size hashsize) ops = .ok c)
    (hp : cache_put c path content_type content content_length = .ok c2) :
    0 ≤ c2.cur_size ∧ c2.cur_size ≤ max_size ∧ c2.max_size = max_size := by
  obtain ⟨l, hreach, hmax⟩ := reachable hr
  obtain ⟨l2, hreach2, hmax2⟩ := put_reach hreach hp
  have hsz := hreach2.inv.size
  refine ⟨by omega, ?_, by rw [hmax2, hmax]⟩
  by_cases h1 : 1 ≤ c2.max_size
  · have := hreach2.bounded h1
    omega
  · have := hreach2.degenerate (by omega)
    subst this
    simp at hsz
    omega

/-- The claim C8 for a put on the full cache of capacity 1. -/
theorem C8_size_bound_witness :
    ∃ c c2, run (cache_create 1 0) [.put "a" "t" [] 0, .get "a"] = .ok c
      ∧ cache_put c "b" "t" [5] 1 = .ok c2
      ∧ 0 ≤ c2.cur_size ∧ c2.cur_size ≤ 1 ∧ c2.max_size = 1 :=
  ⟨_, _, rfl, rfl,
    C8_size_bound 1 0 [.put "a" "t" [] 0, .get "a"] _ _ "b" "t" [5] 1 (by decide) rfl rfl⟩

theorem first_addr_eq_head (l : List Item) :
    first_addr l none = (l.map Item.addr).head? := by
  cases l <;> rfl

theorem last_addr_eq_getLast (l : List Item) (p : Option Nat) :
    last_addr l p = ((l.map Item.addr).getLast?).or p := by
  induction l using List.reverseRecOn with
  | nil => cases p <;> rfl
  | append_singleton l0 s _ => rw [last_addr_snoc]; simp

theorem last_addr_mem {l : List Item} (hne : l ≠ []) (p : Option Nat) :
    ∃ j ∈ l, last_addr l p = some j.addr := by
  rcases List.eq_nil_or_concat l with h | ⟨l0, s, h⟩
  · exact absurd h hne
  · rw [List.concat_eq_append] at h
    subst h
    exact ⟨s, by simp, last_addr_snoc _ _ _⟩

theorem first_addr_mem {l : List Item} (hne : l ≠ []) (n : Option Nat) :
    ∃ j ∈ l, first_addr l n = some j.addr := by
  cases l with
  | nil => exact absurd rfl hne
  | cons j r => exact ⟨j, List.mem_cons_self _ _, rfl⟩

theorem well_formed_of_rep {c : cache} {l : List Item} (hr : Rep c l)
    (hsz : c.cur_size = l.length) : list_well_formed c := by
  have hn : c.cur_size.toNat = l.length := by omega
  have hwalk : walk_next c (c.cur_size.toNat + 1) c.head = l.map Item.addr := by
    rw [hr.head_eq]
    exact walk_next_seg hr.links (by omega)
  have hback : walk_prev c (c.cur_size.toNat + 1) c.tail = (l.map Item.addr).reverse := by
    rw [hr.tail_eq]
    exact walk_prev_seg hr.links (by omega)
  refine ⟨by omega, ?_, ?_, ?_, ?_, ?_, ?_⟩
  · rw [hwalk, hn]; simp
  · rw [hwalk, hr.tail_eq, last_addr_eq_getLast]; simp
  · rw [hwalk, hback]
  · rw [hback, hr.head_eq, first_addr_eq_head]; simp
  · intro a ha
    rw [hwalk] at ha
    obtain ⟨i, hi, rfl⟩ := List.mem_map.mp ha
    obtain ⟨pre, post, rfl⟩ := List.append_of_mem hi
    refine ⟨_, seg_at hr.links, ?_, ?_⟩
    · show last_addr pre none = none ↔ _
      rw [hr.head_eq]
      cases pre with
      | nil => simp [last_addr, first_addr]
      | cons j pre2 =>
        obtain ⟨j2, -, hj2⟩ := last_addr_mem (l := j :: pre2) (by simp) none
        have hne : j.addr ≠ i.addr := by
          intro h
          have := hr.nodup
          simp [h] at this
        simp [hj2, first_addr, hne]
    · show first_addr post none = none ↔ _
      rw [hr.tail_eq, last_addr_append]
      cases post with
      | nil => simp [last_addr, first_addr]
      | cons j post2 =>
        obtain ⟨j2, hj2m, hj2⟩ := last_addr_mem (l := j :: post2) (by simp) (some i.addr)
        have hne : j2.addr ≠ i.addr := by
          intro h
          have := hr.nodup
          rw [List.map_append, List.nodup_append] at this
          have h3 := this.2.1
          simp only [List.map_cons, List.nodup_cons, List.mem_cons, List.mem_map, not_or] at h3
          rcases List.mem_cons.mp hj2m with rfl | hm
          · exact h3.1.1 h.symm
          · exact h3.1.2 ⟨j2, hm, h⟩
        show first_addr (j :: post2) none = none ↔ last_addr (j :: post2) (some i.addr) = _
        rw [hj2]
        simp [first_addr, hne]
  · rw [hr.head_eq, hr.tail_eq]
    cases l with
    | nil => simp [first_addr, last_addr, hsz]
    | cons j r =>
      simp [first_addr, hsz]
      omega

/-- C9: in every state reachable from `cache_create` by puts and gets, for
`max_size ≥ 1` in particular, the recency list is well formed: the walk along `next` from
`head` visits exactly `cur_size` entries and ends at `tail`, the walk along
`prev` from `tail` visits them in reverse order and ends at `head`, `head` is
the only entry with `prev` unset, `tail` the only one with `next` unset, and
both are unset exactly when `cur_size` is zero. -/
theorem C9_list_well_formed (max_size hashsize : Int) (ops : List Op) (c : cache)
    (hr : run (cache_create max_size hashsize) ops = .ok c) :
    list_well_formed c := by
  obtain ⟨l, hreach, -⟩ := reachable hr
  exact well_formed_of_rep hreach.inv.rep hreach.inv.size

/-- The claim C9 after three puts, one of a repeated key, and a get at
capacity 2. -/
theorem C9_list_well_formed_witness :
    ∃ c, run (cache_create 2 0)
          [.put "a" "t" [] 0, .put "b" "t" [] 0, .put "a" "t" [] 0, .get "b"] = .ok c
      ∧ list_well_formed c :=
  ⟨_, rfl, C9_list_well_formed 2 0
    [.put "a" "t" [] 0, .put "b" "t" [] 0, .put "a" "t" [] 0, .get "b"] _ rfl⟩

/-- C10: in every reachable state, `cache_get` of a key present in the index
completes and returns the indexed entry; it leaves `cur_size`, `max_size` and
the index unchanged, and the entries and keys of the recency list are the
same as before up to their order. -/
theorem C10_get_present_frame (max_size hashsize : Int) (ops : List Op) (c : cache)
    (k : String) (a : Nat)
    (hr : run (cache_create max_size hashsize) ops = .ok c)
    (hk : hashtable_get c.index k = some a) :
    ∃ c2, cache_get c k = .ok (c2, some a)
      ∧ c2.cur_size = c.cur_size
      ∧ c2.max_size = c.max_size
      ∧ c2.index = c.index
      ∧ (cache_list c2).Perm (cache_list c)
      ∧ (cache_keys c2).Perm (cache_keys c) := by
  obtain ⟨l, hreach, -⟩ := reachable hr
  obtain ⟨pre, t, post, c2, hl, -, -, hg, hinv, hs⟩ := get_spec_hit hreach.inv hk
  subst hl
  have hperm : (t :: (pre ++ post)).Perm (pre ++ t :: post) := List.perm_middle.symm
  refine ⟨c2, hg, hs.2.2.1, hs.2.1, hs.1, ?_, ?_⟩
  · rw [cache_list_eq hinv, cache_list_eq hreach.inv]
    exact hperm.map _
  · rw [cache_keys_eq hinv, cache_keys_eq hreach.inv]
    exact hperm.map _

/-- The claim C10 for a get of the tail key of a list of three entries. -/
theorem C10_get_present_frame_witness :
    ∃ c, run (cache_create 3 0)
          [.put "a" "t" [] 0, .put "b" "t" [] 0, .put "c" "t" [] 0] = .ok c
      ∧ hashtable_get c.index "a" = some 0
      ∧ ∃ c2, cache_get c "a" = .ok (c2, some 0)
      ∧ c2.cur_size = c.cur_size
      ∧ c2.max_size = c.max_size
      ∧ c2.index = c.index
      ∧ (cache_list c2).Perm (cache_list c)
      ∧ (cache_keys c2).Perm (cache_keys c) :=
  ⟨_, rfl, rfl, C10_get_present_frame 3 0
    [.put "a" "t" [] 0, .put "b" "t" [] 0, .put "c" "t" [] 0] _ "a" 0 rfl rfl⟩

/-! ## Lemmas on well-linked lists -/

theorem walk_next_by (c : cache) (n : Nat) (p : Option Nat) :
    walk_next c n p = walk_by c.heap cache_entry.next n p := by
  induction n generalizing p with
  | zero => rfl
  | succ n ih =>
    cases p with
    | none => rfl
    | some a =>
      simp only [walk_next, walk_by]
      cases c.heap a with
      | none => rfl
      | some e => simp only [ih]

theorem walk_prev_by (c : cache) (n : Nat) (p : Option Nat) :
    walk_prev c n p = walk_by c.heap cache_entry.prev n p := by
  induction n generalizing p with
  | zero => rfl
  | succ n ih =>
    cases p with
    | none => rfl
    | some a =>
      simp only [walk_prev, walk_by]
      cases c.heap a with
      | none => rfl
      | some e => simp only [ih]

/-- A walk that visits `l` and stops with a step to spare starts at the first
entry of `l`, and every entry's link is the entry after it. -/
theorem walk_by_links {h : Nat → Option cache_entry} {f : cache_entry → Option Nat}
    {l : List Nat} {p : Option Nat} (hw : walk_by h f (l.length + 1) p = l)
    (hlive : ∀ a ∈ l, (h a).isSome) :
    p = l.head? ∧ ∀ pre a post, l = pre ++ a :: post →
      ∃ e, h a = some e ∧ f e = post.head? := by
  induction l generalizing p with
  | nil =>
    cases p with
    | none => exact ⟨rfl, by intro pre a post h1; simp at h1⟩
    | some a =>
      simp only [List.length_nil, walk_by] at hw
      cases hh : h a <;> simp [hh] at hw
  | cons a r ih =>
    cases p with
    | none => simp [walk_by] at hw
    | some b =>
      simp only [List.length_cons, walk_by] at hw
      obtain ⟨e, he⟩ := Option.isSome_iff_exists.mp (hlive a (List.mem_cons_self _ _))
      cases hb : h b with
      | none =>
        simp only [hb, List.cons.injEq] at hw
        rw [← hw.1, hb] at he
        cases he
      | some e2 =>
        simp only [hb, List.cons.injEq] at hw
        obtain ⟨hba, hr⟩ := hw
        subst hba
        obtain ⟨ih1, ih2⟩ := ih hr (fun x hx => hlive x (List.mem_cons_of_mem _ hx))
        refine ⟨rfl, ?_⟩
        intro pre x post hdec
        cases pre with
        | nil =>
          simp only [List.nil_append, List.cons.injEq] at hdec
          obtain ⟨h1, h2⟩ := hdec
          subst h1 h2
          exact ⟨e2, hb, ih1⟩
        | cons y pre2 =>
          simp only [List.cons_append, List.cons.injEq] at hdec
          exact ih2 pre2 x post hdec.2

theorem item_at_addr (h : Nat → Option cache_entry) (a : Nat) : (item_at h a).addr = a := by
  unfold item_at
  cases h a <;> rfl

theorem map_item_at_addr (h : Nat → Option cache_entry) (l : List Nat) :
    (l.map (item_at h)).map Item.addr = l := by
  rw [List.map_map]
  have : Item.addr ∘ item_at h = id := by
    funext a
    exact item_at_addr h a
  rw [this, List.map_id]

theorem first_addr_item_at (h : Nat → Option cache_entry) (l : List Nat) :
    first_addr (l.map (item_at h)) none = l.head? := by
  cases l with
  | nil => rfl
  | cons a r => simp [first_addr, item_at_addr]

theorem seg_build {h : Nat → Option cache_entry} (l : List Nat) (p : Option Nat)
    (hl : ∀ pre a post, l = pre ++ a :: post →
      ∃ e, h a = some e ∧ e.prev = (pre.getLast?).or p ∧ e.next = post.head?) :
    seg h p (l.map (item_at h)) none := by
  induction l generalizing p with
  | nil => trivial
  | cons a r ih =>
    obtain ⟨e, he, hp, hn⟩ := hl [] a r rfl
    refine ⟨?_, ?_⟩
    · rw [item_at_addr, first_addr_item_at, he]
      simp only [List.getLast?_nil, Option.none_or] at hp
      simp only [item_at, he, Item.entry, ← hp, ← hn]
    · rw [item_at_addr]
      apply ih
      intro pre x post hdec
      obtain ⟨e2, h1, h2, h3⟩ := hl (a :: pre) x post (by rw [hdec]; rfl)
      refine ⟨e2, h1, ?_, h3⟩
      rw [h2]
      cases pre with
      | nil => simp
      | cons y pre2 =>
        rw [List.getLast?_cons_cons]
        cases hz : (y :: pre2).getLast? with
        | none => simp at hz
        | some z => simp

theorem well_linked_of_rep {c : cache} {l : List Item} (hr : Rep c l) :
    well_linked c (l.map Item.addr) := by
  refine ⟨hr.nodup, ?_, ?_, ?_⟩
  · intro a ha
    obtain ⟨i, hi, rfl⟩ := List.mem_map.mp ha
    obtain ⟨pre, post, rfl⟩ := List.append_of_mem hi
    rw [seg_at hr.links]
    rfl
  · rw [hr.head_eq]
    exact walk_next_seg hr.links (by simp)
  · rw [hr.tail_eq]
    exact walk_prev_seg hr.links (by simp)

theorem rep_of_well_linked {c : cache} {l : List Nat} (hw : well_linked c l) :
    Rep c (l.map (item_at c.heap)) := by
  obtain ⟨hnd, hlive, hn, hp⟩ := hw
  rw [walk_next_by] at hn
  rw [walk_prev_by] at hp
  obtain ⟨hn1, hn2⟩ := walk_by_links hn hlive
  obtain ⟨hp1, hp2⟩ := walk_by_links (l := l.reverse) (by simpa using hp)
    (fun a ha => hlive a (List.mem_reverse.mp ha))
  refine ⟨by rw [map_item_at_addr]; exact hnd, ?_, ?_, ?_⟩
  · rw [first_addr_item_at]; exact hn1
  · rw [last_addr_eq_getLast, map_item_at_addr, hp1]
    simp
  · apply seg_build
    intro pre a post hdec
    obtain ⟨e, he, hnext⟩ := hn2 pre a post hdec
    obtain ⟨e2, he2, hprev⟩ := hp2 post.reverse a pre.reverse (by
      rw [hdec]; simp)
    rw [he] at he2
    injection he2 with he2
    subst he2
    refine ⟨e, he, ?_, hnext⟩
    rw [hprev]
    simp

theorem entry_eta (h : Nat → Option cache_entry) (a : Nat) (e : cache_entry)
    (he : h a = some e) : h a = some ((item_at h a).entry e.prev e.next) := by
  rw [he]
  simp only [item_at, he, Item.entry]

theorem last_addr_cons_ne_nil {l : List Item} (hne : l ≠ []) (p q : Option Nat) :
    last_addr l p = last_addr l q := by
  cases l with
  | nil => exact absurd rfl hne
  | cons i r => rfl

theorem step_total {c : cache} {l : List Item} (hr : Reach c l) (hm : 1 ≤ c.max_size)
    (op : Op) : ∃ c2, step c op = .ok c2 := by
  cases op with
  | put path content_type content content_length =>
    obtain ⟨c2, h, -⟩ := put_spec hr.inv hm (hr.bounded hm) path content_type content
      content_length
    exact ⟨c2, h⟩
  | get path =>
    cases hk : c.index path with
    | none => exact ⟨c, by simp [step, get_spec_miss hk]⟩
    | some a =>
      obtain ⟨-, -, -, c2, -, -, -, hg, -, -⟩ := get_spec_hit hr.inv hk
      exact ⟨c2, by simp [step, hg]⟩

theorem run_total {c : cache} {l : List Item} (hr : Reach c l) (hm : 1 ≤ c.max_size)
    (ops : List Op) : ∃ c2, run c ops = .ok c2 := by
  induction ops generalizing c l with
  | nil => exact ⟨c, rfl⟩
  | cons op rest ih =>
    obtain ⟨c1, hs⟩ := step_total hr hm op
    obtain ⟨l1, hr1, hm1⟩ := step_reach hr hs
    obtain ⟨c2, h2⟩ := ih hr1 (by rw [hm1]; exact hm)
    exact ⟨c2, by simp [run, hs, h2]⟩

/-! ## The claims on single calls and on the list operations -/

/-- C11: in every state, the reachable ones in particular, `cache_get` of a
key absent from the index returns not-found and the state afterwards is the
state before: `head`, `tail`, the links of every entry, `cur_size`,
`max_size` and the index are unchanged. -/
theorem C11_get_absent_no_effect (c : cache) (k : String)
    (hk : hashtable_get c.index k = none) :
    cache_get c k = .ok (c, none) :=
  get_spec_miss hk

/-- The claim C11 for a get of a key that was never put. -/
theorem C11_get_absent_no_effect_witness :
    ∃ c, run (cache_create 2 0) [.put "a" "t" [1] 1, .put "b" "t" [2] 1] = .ok c
      ∧ hashtable_get c.index "z" = none
      ∧ cache_get c "z" = .ok (c, none) :=
  ⟨_, rfl, rfl, C11_get_absent_no_effect _ "z" rfl⟩

/-- C12: in every reachable state and for every key, `cache_get` completes,
and a second `cache_get` of the same key right after it returns the same
pointer and leaves the state of the first call as it is. -/
theorem C12_get_idempotent (max_size hashsize : Int) (ops : List Op) (c : cache)
    (k : String) (hr : run (cache_create max_size hashsize) ops = .ok c) :
    ∃ c1 r, cache_get c k = .ok (c1, r) ∧ cache_get c1 k = .ok (c1, r) := by
  obtain ⟨l, hreach, -⟩ := reachable hr
  cases hk : c.index k with
  | none =>
    exact ⟨c, none, get_spec_miss hk, get_spec_miss hk⟩
  | some a =>
    obtain ⟨pre, t, post, c1, -, hta, -, hg, hinv, hs⟩ := get_spec_hit hreach.inv hk
    refine ⟨c1, some a, hg, ?_⟩
    have hidx : c1.index k = some a := by rw [hs.1]; exact hk
    have hhead : c1.head = some a := by rw [hinv.rep.head_eq, ← hta]; rfl
    simp [cache_get, hashtable_get, hidx, dllist_move_to_head, hhead]

/-- The claim C12 for a get of the tail key of a list of three entries. -/
theorem C12_get_idempotent_witness :
    ∃ c, run (cache_create 3 0)
          [.put "a" "t" [] 0, .put "b" "t" [] 0, .put "c" "t" [] 0] = .ok c
      ∧ ∃ c1 r, cache_get c "a" = .ok (c1, r) ∧ cache_get c1 "a" = .ok (c1, r) :=
  ⟨_, rfl, C12_get_idempotent 3 0
    [.put "a" "t" [] 0, .put "b" "t" [] 0, .put "c" "t" [] 0] _ "a" rfl⟩

/-- C13: `cache_create` returns a cache with `head` and `tail` unset,
`cur_size` zero, the given `max_size` and an index without keys, so the list
is empty and `cache_get` on any key returns not-found. -/
theorem C13_create_empty (max_size hashsize : Int) :
    (cache_create max_size hashsize).head = none
      ∧ (cache_create max_size hashsize).tail = none
      ∧ (cache_create max_size hashsize).cur_size = 0
      ∧ (cache_create max_size hashsize).max_size = max_size
      ∧ (∀ k, hashtable_get (cache_create max_size hashsize).index k = none)
      ∧ cache_list (cache_create max_size hashsize) = []
      ∧ ∀ k, cache_get (cache_create max_size hashsize) k
          = .ok (cache_create max_size hashsize, none) :=
  ⟨rfl, rfl, rfl, rfl, fun _ => rfl, rfl, fun _ => rfl⟩

/-- C14, the claim as stated fails: on a list of two entries
`dllist_remove_tail` completes and the counter afterwards differs from the
counter before. -/
theorem C14_remove_tail_counter_counterexample :
    ∃ c c1 t, run (cache_create 2 0) [.put "a" "t" [] 0, .put "b" "t" [] 0] = .ok c
      ∧ dllist_remove_tail c = .ok (c1, t)
      ∧ c1.cur_size ≠ c.cur_size :=
  ⟨_, _, _, rfl, rfl, by decide⟩

/-- C14 as amended: whenever `dllist_remove_tail` completes it has lowered the
counter `cur_size` of the cache by one, and it leaves `max_size` and the
index unchanged. -/
theorem C14_remove_tail_counter_amended (c c1 : cache) (t : Option Nat)
    (h : dllist_remove_tail c = .ok (c1, t)) :
    c1.cur_size = c.cur_size - 1 ∧ c1.max_size = c.max_size ∧ c1.index = c.index := by
  unfold dllist_remove_tail at h
  cases hl : load c c.tail with
  | error f => simp [hl] at h
  | ok e =>
    simp only [hl] at h
    cases hp : e.prev with
    | none => simp [hp, set_next] at h
    | some p =>
      cases hh : c.heap p with
      | none => simp [hp, set_next, hh] at h
      | some e2 =>
        simp only [hp, set_next, hh, store] at h
        injection h with h
        injection h with h1 h2
        subst h1
        exact ⟨rfl, rfl, rfl⟩

/-- The amended claim C14 on a list of three entries. -/
theorem C14_remove_tail_counter_amended_witness :
    ∃ c c1 t, run (cache_create 3 0)
          [.put "a" "t" [] 0, .put "b" "t" [] 0, .put "c" "t" [] 0] = .ok c
      ∧ dllist_remove_tail c = .ok (c1, t)
      ∧ c1.cur_size = c.cur_size - 1 ∧ c1.max_size = c.max_size ∧ c1.index = c.index :=
  ⟨_, _, _, rfl, rfl, C14_remove_tail_counter_amended _ _ _ rfl⟩

/-- C15, the code on a list of exactly one entry: `dllist_remove_tail` does
not complete; it sets `tail` to the `NULL` pointer `oldtail->prev` and then
writes `cache->tail->next`. -/
theorem C15_remove_tail_single_entry_faults (c : cache) (a : Nat)
    (hw : well_linked c [a]) :
    dllist_remove_tail c = .error .null_deref :=
  remove_tail_single (rep_of_well_linked hw)

/-- The fault of C15 on the cache that holds the one entry of a first put. -/
theorem C15_remove_tail_single_entry_faults_witness :
    ∃ c, run (cache_create 1 0) [.put "a" "t" [1] 1] = .ok c
      ∧ well_linked c [0]
      ∧ dllist_remove_tail c = .error .null_deref :=
  ⟨_, rfl, ⟨by decide, by decide, rfl, rfl⟩,
    C15_remove_tail_single_entry_faults _ 0 ⟨by decide, by decide, rfl, rfl⟩⟩

/-- C16: on a well-linked list `l`, for an entry `ce` of it,
`dllist_move_to_head` changes nothing when `ce` is the head; otherwise it
completes, the list afterwards is `ce` followed by the other entries in their
previous order and is well linked, the tail becomes the former `prev` of `ce`
exactly when `ce` was the tail (and is unchanged otherwise), and the entries
linked are the same as before. -/
theorem C16_move_to_head (c : cache) (l : List Nat) (ce : Nat)
    (hw : well_linked c l) (hce : ce ∈ l) :
    (c.head = some ce → dllist_move_to_head c ce = .ok c)
      ∧ (c.head ≠ some ce →
          ∃ c2 e, c.heap ce = some e
            ∧ dllist_move_to_head c ce = .ok c2
            ∧ c2.head = some ce
            ∧ well_linked c2 (ce :: l.erase ce)
            ∧ (c2.tail = e.prev ↔ c.tail = some ce)
            ∧ (c.tail ≠ some ce → c2.tail = c.tail)
            ∧ (ce :: l.erase ce).Perm l) := by
  constructor
  · intro hh
    simp [dllist_move_to_head, hh]
  · intro hh
    obtain ⟨t, ht⟩ : ∃ t, t = item_at c.heap ce := ⟨_, rfl⟩
    have hta : t.addr = ce := by rw [ht]; exact item_at_addr _ _
    obtain ⟨items, hitems⟩ : ∃ items, items = l.map (item_at c.heap) := ⟨_, rfl⟩
    have hrep : Rep c items := by rw [hitems]; exact rep_of_well_linked hw
    have hmap : items.map Item.addr = l := by rw [hitems]; exact map_item_at_addr _ _
    have hmem : t ∈ items := by rw [hitems, ht]; exact List.mem_map_of_mem _ hce
    obtain ⟨pre, post, hdec⟩ := List.append_of_mem hmem
    subst hdec
    clear hitems ht hmem
    obtain ⟨c2, hm, hrep2, -⟩ := move_to_head_spec hrep
    rw [hta] at hm
    have hnd := hrep.nodup
    simp only [List.map_append, List.map_cons, hta] at hnd hmap
    have hnd2 := hnd
    rw [List.nodup_append] at hnd2
    obtain ⟨-, hnd3, hdis⟩ := hnd2
    have hpre : ce ∉ pre.map Item.addr := fun h => hdis h (List.mem_cons_self _ _)
    have hpost : ce ∉ post.map Item.addr := (List.nodup_cons.mp hnd3).1
    have hprene : pre ≠ [] := by
      intro h
      subst h
      apply hh
      rw [hrep.head_eq, ← hta]
      rfl
    have hlist : (t :: (pre ++ post)).map Item.addr = ce :: l.erase ce := by
      rw [← hmap, List.erase_append_right _ hpre, List.erase_cons_head]
      simp [hta]
    have hperm : (ce :: l.erase ce).Perm l := by
      rw [← hlist, ← hmap]
      have := (List.perm_middle : (pre ++ t :: post).Perm (t :: (pre ++ post))).symm.map
        Item.addr
      simpa [hta] using this
    have he : c.heap ce = some (t.entry (last_addr pre none) (first_addr post none)) := by
      rw [← hta]; exact seg_at hrep.links
    have htail : c.tail = last_addr post (some ce) := by
      rw [hrep.tail_eq, last_addr_append, ← hta]; rfl
    have htail2 : c2.tail = last_addr post (last_addr pre none) := by
      rw [hrep2.tail_eq]
      show last_addr (pre ++ post) (some t.addr) = _
      rw [last_addr_append, last_addr_cons_ne_nil hprene (some t.addr) none]
    refine ⟨c2, _, he, hm, ?_, ?_, ?_, ?_, hperm⟩
    · rw [hrep2.head_eq, ← hta]; rfl
    · rw [← hlist]; exact well_linked_of_rep hrep2
    · show c2.tail = last_addr pre none ↔ _
      rw [htail, htail2]
      cases post with
      | nil => simp [last_addr]
      | cons j post2 =>
        obtain ⟨j2, hj2m, hj2⟩ := last_addr_mem (l := j :: post2) (by simp) (some ce)
        obtain ⟨i, him, hi⟩ := last_addr_mem (l := pre) hprene none
        rw [last_addr_cons_ne_nil (l := j :: post2) (by simp) (last_addr pre none) (some ce),
          hj2, hi]
        have h1 : j2.addr ≠ ce := by
          intro h
          exact hpost (List.mem_map.mpr ⟨j2, hj2m, h⟩)
        have h2 : j2.addr ≠ i.addr := by
          intro h
          exact hdis (List.mem_map_of_mem _ him)
            (List.mem_cons_of_mem _ (List.mem_map.mpr ⟨j2, hj2m, h⟩))
        simp [h1, h2]
    · rw [htail, htail2]
      intro hne
      cases post with
      | nil => exact absurd rfl hne
      | cons j post2 => rfl

/-- The claim C16 for the tail entry of a list of three entries. -/
theorem C16_move_to_head_witness :
    ∃ c, run (cache_create 3 0)
          [.put "a" "t" [] 0, .put "b" "t" [] 0, .put "c" "t" [] 0] = .ok c
      ∧ well_linked c [2, 1, 0] ∧ 0 ∈ [2, 1, 0]
      ∧ (c.head = some 0 → dllist_move_to_head c 0 = .ok c)
      ∧ (c.head ≠ some 0 →
          ∃ c2 e, c.heap 0 = some e
            ∧ dllist_move_to_head c 0 = .ok c2
            ∧ c2.head = some 0
            ∧ well_linked c2 (0 :: [2, 1, 0].erase 0)
            ∧ (c2.tail = e.prev ↔ c.tail = some 0)
            ∧ (c.tail ≠ some 0 → c2.tail = c.tail)
            ∧ (0 :: [2, 1, 0].erase 0).Perm [2, 1, 0]) :=
  ⟨_, rfl, ⟨by decide, by decide, rfl, rfl⟩, by decide,
    C16_move_to_head _ [2, 1, 0] 0 ⟨by decide, by decide, rfl, rfl⟩ (by decide)⟩

/-- C17: on a well-linked list `l`, for an allocated entry `ce` that is not
linked in it, `dllist_insert_head` completes and makes `ce` the head with
`prev` unset and `next` the former head; when the list was empty `ce` is also
the tail and its `next` is unset; otherwise the former head's `prev` is `ce`
and the tail is unchanged; the list afterwards is `ce` followed by `l` and is
well linked. -/
theorem C17_insert_head (c : cache) (l : List Nat) (ce : Nat) (e0 : cache_entry)
    (hw : well_linked c l) (hce : ce ∉ l) (he0 : c.heap ce = some e0) :
    ∃ c2 e, dllist_insert_head c ce = .ok c2
      ∧ c2.head = some ce
      ∧ c2.heap ce = some e ∧ e.prev = none ∧ e.next = c.head
      ∧ (l = [] → c2.tail = some ce ∧ e.next = none)
      ∧ (∀ b, c.head = some b →
          c2.tail = c.tail ∧ ∃ eb, c2.heap b = some eb ∧ eb.prev = some ce)
      ∧ well_linked c2 (ce :: l) := by
  obtain ⟨it, hit⟩ : ∃ it, it = item_at c.heap ce := ⟨_, rfl⟩
  have hita : it.addr = ce := by rw [hit]; exact item_at_addr _ _
  obtain ⟨items, hitems⟩ : ∃ items, items = l.map (item_at c.heap) := ⟨_, rfl⟩
  have hrep : Rep c items := by rw [hitems]; exact rep_of_well_linked hw
  have hmap : items.map Item.addr = l := by rw [hitems]; exact map_item_at_addr _ _
  have hlive : c.heap it.addr = some (it.entry e0.prev e0.next) := by
    rw [hita, hit]; exact entry_eta _ _ _ he0
  obtain ⟨h2, hins, hseg, -⟩ := insert_head_spec hrep it (by rw [hmap, hita]; exact hce)
    e0.prev e0.next hlive
  rw [hita] at hins
  have hrep2 : Rep { c with head := some ce, tail := last_addr (it :: items) none, heap := h2 }
      (it :: items) := by
    refine ⟨?_, by rw [← hita]; rfl, rfl, hseg⟩
    simp only [List.map_cons, hmap, hita, List.nodup_cons]
    exact ⟨hce, hw.1⟩
  have hhead : c.head = first_addr items none := hrep.head_eq
  refine ⟨_, it.entry none (first_addr items none), hins, rfl, ?_, rfl, hhead.symm, ?_, ?_, ?_⟩
  · rw [← hita]; exact hseg.1
  · intro hl
    subst hl
    have : items = [] := by simpa using hmap
    subst this
    exact ⟨by rw [← hita]; rfl, rfl⟩
  · intro b hb
    cases items with
    | nil => rw [hhead] at hb; cases hb
    | cons j r =>
      rw [hhead] at hb
      injection hb with hb
      refine ⟨?_, j.entry (some ce) (first_addr r none), ?_, rfl⟩
      · show last_addr (j :: r) (some it.addr) = c.tail
        rw [hrep.tail_eq]
        rfl
      · have h3 : h2 j.addr = some (j.entry (some it.addr) (first_addr r none)) := hseg.2.1
        rw [hita, hb] at h3
        exact h3
  · have := well_linked_of_rep hrep2
    simpa [hmap, hita] using this

/-- The claim C17 for a freshly allocated entry and a list of two entries. -/
theorem C17_insert_head_witness :
    ∃ c, run (cache_create 3 0) [.put "a" "t" [] 0, .put "b" "t" [] 0] = .ok c
      ∧ well_linked (alloc_entry c "c" "t" [] 0).1 [1, 0] ∧ 2 ∉ [1, 0]
      ∧ (alloc_entry c "c" "t" [] 0).1.heap 2 = some ⟨"c", "t", 0, [], none, none⟩
      ∧ ∃ c2 e, dllist_insert_head (alloc_entry c "c" "t" [] 0).1 2 = .ok c2
        ∧ c2.head = some 2
        ∧ c2.heap 2 = some e ∧ e.prev = none ∧ e.next = (alloc_entry c "c" "t" [] 0).1.head
        ∧ (([1, 0] : List Nat) = [] → c2.tail = some 2 ∧ e.next = none)
        ∧ (∀ b, (alloc_entry c "c" "t" [] 0).1.head = some b →
            c2.tail = (alloc_entry c "c" "t" [] 0).1.tail
              ∧ ∃ eb, c2.heap b = some eb ∧ eb.prev = some 2)
        ∧ well_linked c2 (2 :: [1, 0]) :=
  ⟨_, rfl, ⟨by decide, by decide, rfl, rfl⟩, by decide, rfl,
    C17_insert_head _ [1, 0] 2 ⟨"c", "t", 0, [], none, none⟩
      ⟨by decide, by decide, rfl, rfl⟩ (by decide) rfl⟩

/-- C18: in every reachable state with `cur_size < max_size` in which the
index holds key `k` (entry `a`), `cache_put` of `k` makes no duplicate check:
it completes, `cur_size` grows by one, the new entry is the head, the earlier
entry `a` is still linked behind it and still carries `k`, the index stores
the new entry under `k`, and a `cache_get` of `k` right after returns the new
entry with the content type and bytes of this put. -/
theorem C18_duplicate_put (max_size hashsize : Int) (ops : List Op) (c : cache)
    (k ct2 : String) (bytes2 : List Nat) (len2 : Int) (a : Nat)
    (hr : run (cache_create max_size hashsize) ops = .ok c)
    (hlt : c.cur_size < c.max_size)
    (hk : hashtable_get c.index k = some a) :
    ∃ c2, cache_put c k ct2 bytes2 len2 = .ok c2
      ∧ c2.cur_size = c.cur_size + 1
      ∧ c2.head = some c.brk
      ∧ cache_list c2 = c.brk :: cache_list c
      ∧ a ∈ cache_list c ∧ a ≠ c.brk
      ∧ (c2.heap a).map cache_entry.path = some k
      ∧ hashtable_get c2.index k = some c.brk
      ∧ (∃ c3, cache_get c2 k = .ok (c3, some c.brk))
      ∧ ∃ e, lookup c2 k = .ok (some e)
          ∧ e.content_type = ct2 ∧ e.content = bytes2.take len2.toNat
          ∧ e.content_length = len2 ∧ e.path = k := by
  obtain ⟨l, hreach, -⟩ := reachable hr
  obtain ⟨c2, hp, hinv, hidx, -, -⟩ := put_spec_room hreach.inv hlt k ct2 bytes2 len2
  obtain ⟨i, hi, hia, hip⟩ := hreach.inv.indexed k a hk
  have hk2 : c2.index k = some c.brk := by rw [hidx]; simp [hashtable_put]
  obtain ⟨pre, t, post, c3, -, hta, -, hg, -, -⟩ := get_spec_hit hinv hk2
  obtain ⟨t2, ht2, hta2, -, n, hl⟩ := lookup_hit hinv hk2
  have ht2eq := addr_inj hinv.rep.nodup ht2 (List.mem_cons_self _ _)
    (by rw [hta2]; rfl)
  subst ht2eq
  refine ⟨c2, hp, ?_, ?_, ?_, ?_, ?_, ?_, hk2, ⟨c3, hg⟩,
    (new_item c k ct2 bytes2 len2).entry none n, hl, rfl, rfl, rfl, rfl⟩
  · rw [hinv.size, hreach.inv.size]; simp
  · rw [hinv.rep.head_eq]; rfl
  · rw [cache_list_eq hinv, cache_list_eq hreach.inv]; rfl
  · rw [cache_list_eq hreach.inv]
    exact List.mem_map.mpr ⟨i, hi, hia⟩
  · have := hreach.inv.fresh i hi
    omega
  · obtain ⟨pre2, post2, hdec⟩ := List.append_of_mem (List.mem_cons_of_mem
      (new_item c k ct2 bytes2 len2) hi)
    have hseg := hinv.rep.links
    rw [hdec] at hseg
    rw [← hia, seg_at hseg]
    simp [Item.entry, hip]

/-- The claim C18 for a second put of key "k" at capacity 3. -/
theorem C18_duplicate_put_witness :
    ∃ c, run (cache_create 3 0) [.put "k" "t" [1] 1, .put "j" "t" [2] 1] = .ok c
      ∧ c.cur_size < c.max_size
      ∧ hashtable_get c.index "k" = some 0
      ∧ ∃ c2, cache_put c "k" "u" [7, 8, 9] 2 = .ok c2
        ∧ c2.cur_size = c.cur_size + 1
        ∧ c2.head = some c.brk
        ∧ cache_list c2 = c.brk :: cache_list c
        ∧ 0 ∈ cache_list c ∧ 0 ≠ c.brk
        ∧ (c2.heap 0).map cache_entry.path = some "k"
        ∧ hashtable_get c2.index "k" = some c.brk
        ∧ (∃ c3, cache_get c2 "k" = .ok (c3, some c.brk))
        ∧ ∃ e, lookup c2 "k" = .ok (some e)
            ∧ e.content_type = "u" ∧ e.content = [7, 8, 9].take (2 : Int).toNat
            ∧ e.content_length = 2 ∧ e.path = "k" :=
  ⟨_, rfl, by decide, rfl,
    C18_duplicate_put 3 0 [.put "k" "t" [1] 1, .put "j" "t" [2] 1] _ "k" "u" [7, 8, 9] 2 0
      rfl (by decide) rfl⟩

/-- C19: on a fresh cache of capacity `max_size ≥ 1` every sequence of puts
and gets completes. In the state it reaches, every entry the index returns is
allocated and linked in the list, so every `cache_get` completes; and every
`cache_put` completes: the list it builds before the eviction loop is the new
entry followed by the old list, and either the cache was not full and nothing
is evicted, or it was full, the list before the loop holds at least two
entries and exactly one, the last, is removed. -/
theorem C19_calls_complete (max_size hashsize : Int) (ops : List Op) (hm : 1 ≤ max_size) :
    ∃ c, run (cache_create max_size hashsize) ops = .ok c
      ∧ (∀ k a, hashtable_get c.index k = some a →
          a ∈ cache_list c ∧ (c.heap a).isSome)
      ∧ (∀ k, ∃ c2 r, cache_get c k = .ok (c2, r))
      ∧ ∀ path content_type content content_length,
          ∃ c1 c2,
            dllist_insert_head (alloc_entry c path content_type content content_length).1
                (alloc_entry c path content_type content content_length).2 = .ok c1
            ∧ well_linked c1 (c.brk :: cache_list c)
            ∧ cache_put c path content_type content content_length = .ok c2
            ∧ ((c.cur_size < c.max_size ∧ c2.cur_size = c.cur_size + 1
                  ∧ cache_list c2 = c.brk :: cache_list c)
                ∨ (c.cur_size = c.max_size ∧ c2.cur_size = c.cur_size
                  ∧ 2 ≤ (c.brk :: cache_list c).length
                  ∧ cache_list c2 = c.brk :: (cache_list c).dropLast)) := by
  obtain ⟨c, hr⟩ := run_total (reach_create max_size hashsize) (by exact hm) ops
  obtain ⟨l, hreach, hmax⟩ := reachable hr
  have hm2 : 1 ≤ c.max_size := by rw [hmax]; exact hm
  have hb := hreach.bounded hm2
  have hsz := hreach.inv.size
  refine ⟨c, hr, ?_, ?_, ?_⟩
  · intro k a hk
    obtain ⟨i, hi, hia, -⟩ := hreach.inv.indexed k a hk
    obtain ⟨pre, post, hdec⟩ := List.append_of_mem hi
    refine ⟨?_, ?_⟩
    · rw [cache_list_eq hreach.inv]
      exact List.mem_map.mpr ⟨i, hi, hia⟩
    · have hseg := hreach.inv.rep.links
      rw [hdec] at hseg
      rw [← hia, seg_at hseg]
      rfl
  · intro k
    cases hk : c.index k with
    | none => exact ⟨c, none, get_spec_miss hk⟩
    | some a =>
      obtain ⟨-, -, -, c2, -, -, -, hg, -, -⟩ := get_spec_hit hreach.inv hk
      exact ⟨c2, some a, hg⟩
  · intro path content_type content content_length
    obtain ⟨h2, he, hs⟩ := put_before_loop hreach.inv path content_type content content_length
    have hrep1 : Rep { c with
          head := some c.brk
          tail := last_addr (new_item c path content_type content content_length :: l) none
          heap := h2
          brk := c.brk + 1 } (new_item c path content_type content content_length :: l) := by
      refine ⟨?_, rfl, rfl, hs⟩
      simpa [new_item] using ⟨by simpa using brk_not_mem hreach.inv, hreach.inv.rep.nodup⟩
    have hwl := well_linked_of_rep hrep1
    have hlist1 : (new_item c path content_type content content_length :: l).map Item.addr
        = c.brk :: cache_list c := by
      rw [cache_list_eq hreach.inv]; rfl
    rw [hlist1] at hwl
    by_cases hlt : c.cur_size < c.max_size
    · obtain ⟨c2, hp, hinv, -, -, -⟩ :=
        put_spec_room hreach.inv hlt path content_type content content_length
      refine ⟨_, c2, he, hwl, hp, Or.inl ⟨hlt, ?_, ?_⟩⟩
      · rw [hinv.size, hsz]; simp
      · rw [cache_list_eq hinv, cache_list_eq hreach.inv]; rfl
    · have hfull : c.cur_size = c.max_size := by omega
      obtain ⟨l0, t, hl⟩ : ∃ l0 t, l = l0 ++ [t] := by
        rcases List.eq_nil_or_concat l with h | ⟨l0, t, h⟩
        · subst h; simp at hsz; omega
        · exact ⟨l0, t, by simpa using h⟩
      subst hl
      obtain ⟨c2, hp, hinv, -, -, -⟩ :=
        put_spec_full hreach.inv hfull path content_type content content_length
      refine ⟨_, c2, he, hwl, hp, Or.inr ⟨hfull, ?_, ?_, ?_⟩⟩
      · rw [hinv.size, hsz]; simp
      · rw [cache_list_eq hreach.inv]; simp
      · rw [cache_list_eq hinv, cache_list_eq hreach.inv]
        simp [new_item]

/-- The claim C19 at capacity 1 for a sequence with a repeated key. -/
theorem C19_calls_complete_witness :
    ∃ c, run (cache_create 1 0)
          [.put "a" "t" [] 0, .put "a" "t" [] 0, .get "a", .put "b" "t" [] 0] = .ok c
      ∧ (∀ k a, hashtable_get c.index k = some a →
          a ∈ cache_list c ∧ (c.heap a).isSome)
      ∧ (∀ k, ∃ c2 r, cache_get c k = .ok (c2, r))
      ∧ ∀ path content_type content content_length,
          ∃ c1 c2,
            dllist_insert_head (alloc_entry c path content_type content content_length).1
                (alloc_entry c path content_type content content_length).2 = .ok c1
            ∧ well_linked c1 (c.brk :: cache_list c)
            ∧ cache_put c path content_type content content_length = .ok c2
            ∧ ((c.cur_size < c.max_size ∧ c2.cur_size = c.cur_size + 1
                  ∧ cache_list c2 = c.brk :: cache_list c)
                ∨ (c.cur_size = c.max_size ∧ c2.cur_size = c.cur_size
                  ∧ 2 ≤ (c.brk :: cache_list c).length
                  ∧ cache_list c2 = c.brk :: (cache_list c).dropLast)) :=
  C19_calls_complete 1 0 _ (by decide)

/-- C20: at capacity 2, after put(k), put(k), put(j) with `j ≠ k`, the third
put evicts the older copy of `k` and deletes key `k` from the index:
`cache_get` of `k` returns not-found and changes nothing, although the newer
entry for `k` (at address 1, holding the bytes of the second put) is still
linked in the list behind the entry of `j` and counted in `cur_size`. -/
theorem C20_stale_eviction_deregisters :
    ∃ c, run (cache_create 2 0)
          [.put "k" "t" [1] 1, .put "k" "t" [2] 1, .put "j" "t" [3] 1] = .ok c
      ∧ hashtable_get c.index "k" = none
      ∧ cache_get c "k" = .ok (c, none)
      ∧ lookup c "k" = .ok none
      ∧ cache_list c = [2, 1]
      ∧ cache_keys c = ["j", "k"]
      ∧ (c.heap 1).map cache_entry.content = some [2]
      ∧ c.cur_size = 2 :=
  ⟨_, rfl, rfl, rfl, rfl, rfl, rfl, rfl, rfl⟩

end CWebServer
